import Mathlib

/-!
Verification of the OSqlite storage core: a shallow embedding of the
NVMe queue pair, the WAL shared-memory locks, the block allocator, the
file table and the SQLite VFS adapter (read / write / truncate paths),
with theorems checking the specification claims against the code.

Machine integers (u64, u32, u16) are embedded as `Nat`; wherever the
source can overflow or panic, the theorems carry the corresponding
side conditions explicitly.
-/

namespace OSqlite

/-! ## SQLite constants (from sqlite3.h, as in src/kernel/src/vfs/sqlite_vfs.rs) -/

def SQLITE_OK : Int := 0
def SQLITE_ERROR : Int := 1
def SQLITE_BUSY : Int := 5
def SQLITE_IOERR : Int := 10
def SQLITE_FULL : Int := 13
def SQLITE_CANTOPEN : Int := 14
def SQLITE_IOERR_READ : Int := 266
def SQLITE_IOERR_SHORT_READ : Int := 522
def SQLITE_IOERR_WRITE : Int := 778
def SQLITE_IOERR_FSYNC : Int := 1034
def SQLITE_IOERR_NOMEM : Int := 3082

/-! ## NVMe queue pair (src/kernel/src/drivers/nvme/queue.rs)

The completion ring is embedded as a function from slot index to the
16-byte completion entry; `poll_completion` is state-passing. -/

/-- NVMe Completion Queue Entry: 16 bytes, four dwords. -/
structure CompletionEntry where
  dw0 : Nat
  dw1 : Nat
  sq_head_sqid : Nat
  cid_status : Nat
deriving DecidableEq

/-- Extract the phase bit (bit 0 of cid_status). -/
def CompletionEntry.phase (e : CompletionEntry) : Bool :=
  e.cid_status &&& 1 != 0

/-- Extract the status field: bits 15:1 of cid_status (15 bits wide). -/
def CompletionEntry.status (e : CompletionEntry) : Nat :=
  (e.cid_status >>> 1) &&& 0x7FFF

/-- A queue pair: its completion ring contents, consumer head, size and
expected phase. The submission side is not needed for the claims. -/
structure QueuePair where
  cq : Nat → CompletionEntry
  cq_head : Nat
  size : Nat
  cq_phase : Bool

/-- QueuePair::poll_completion — read the CQE at cq_head; on phase match
advance the head modulo the queue size, toggling the expected phase when
the head wraps to zero, and return the status; on mismatch return None. -/
def QueuePair.poll_completion (q : QueuePair) : QueuePair × Option Nat :=
  let cqe := q.cq q.cq_head
  if cqe.phase = q.cq_phase then
    let head1 := (q.cq_head + 1) % q.size
    let phase1 := if head1 = 0 then !q.cq_phase else q.cq_phase
    ({ q with cq_head := head1, cq_phase := phase1 }, some cqe.status)
  else
    (q, none)

/-! ## WAL shared-memory locks (src/kernel/src/vfs/sqlite_vfs.rs, ShmLockState / shm_lock) -/

def SQLITE_SHM_NLOCK : Nat := 8

/-- One WAL lock slot: shared holder count and exclusive flag. -/
structure ShmLockState where
  shared_count : Nat
  exclusive : Bool
deriving DecidableEq

def shmDefault : ShmLockState := { shared_count := 0, exclusive := false }

/-- ShmLockState::try_shared — fails when exclusive is held, else
increments the shared count. Returns the updated slot on success. -/
def ShmLockState.try_shared (s : ShmLockState) : Option ShmLockState :=
  if s.exclusive then none
  else some { s with shared_count := s.shared_count + 1 }

/-- ShmLockState::try_exclusive — fails when exclusive is held or any
shared holder exists, else sets exclusive. -/
def ShmLockState.try_exclusive (s : ShmLockState) : Option ShmLockState :=
  if s.exclusive ∨ s.shared_count > 0 then none
  else some { s with exclusive := true }

/-- ShmLockState::release_shared — decrements the shared count. -/
def ShmLockState.release_shared (s : ShmLockState) : ShmLockState :=
  { s with shared_count := s.shared_count - 1 }

/-- ShmLockState::release_exclusive — clears the exclusive flag. -/
def ShmLockState.release_exclusive (s : ShmLockState) : ShmLockState :=
  { s with exclusive := false }

/-- Slot access: the source indexes the fixed array locks[i]. -/
def shmSlot (l : List ShmLockState) (i : Nat) : ShmLockState :=
  l.getD i shmDefault

/-- The rollback loop of shm_lock: release slots [start, start+cnt)
(release_exclusive or release_shared according to the lock kind). -/
def shmRollback (excl : Bool) (l : List ShmLockState) (start : Nat) : Nat → List ShmLockState
  | 0 => l
  | cnt + 1 =>
    let l1 := shmRollback excl l start cnt
    l1.set (start + cnt)
      (if excl then (shmSlot l1 (start + cnt)).release_exclusive
       else (shmSlot l1 (start + cnt)).release_shared)

/-- The acquisition loop of HeavenVfs::shm_lock for lock requests:
iterate i over offset..offset+n, bounds-check against the 8 slots,
try to acquire each; on conflict release slots [offset, i) and return
Busy. `start` is the original offset (for rollback), `i` the current
index, the second Nat the remaining count. -/
def shmLockGo (excl : Bool) (start : Nat) : Nat → Nat → List ShmLockState → List ShmLockState × Int
  | _, 0, l => (l, SQLITE_OK)
  | i, n + 1, l =>
    if SQLITE_SHM_NLOCK ≤ i then (l, SQLITE_ERROR)
    else
      match (if excl then (shmSlot l i).try_exclusive else (shmSlot l i).try_shared) with
      | some s1 => shmLockGo excl start (i + 1) n (l.set i s1)
      | none => (shmRollback excl l start (i - start), SQLITE_BUSY)

/-- HeavenVfs::shm_lock restricted to lock requests (SQLITE_SHM_LOCK set):
acquire slots [offset, offset+n) shared or exclusive. -/
def shm_lock_acquire (excl : Bool) (offset n : Nat) (l : List ShmLockState) :
    List ShmLockState × Int :=
  shmLockGo excl offset offset n l

/-- A slot conflicts with a request exactly when the try_ call would fail:
an exclusive request on a slot that is exclusive or has shared holders,
or a shared request on an exclusive slot. -/
def shmConflict (excl : Bool) (s : ShmLockState) : Prop :=
  if excl then s.exclusive = true ∨ s.shared_count > 0 else s.exclusive = true

instance (excl : Bool) (s : ShmLockState) : Decidable (shmConflict excl s) := by
  unfold shmConflict; split <;> infer_instance

/-- The effect of a successful acquisition on one slot. -/
def shmAcquire (excl : Bool) (s : ShmLockState) : ShmLockState :=
  if excl then { s with exclusive := true }
  else { s with shared_count := s.shared_count + 1 }

/-! ## Block allocator (src/kernel/src/storage/block_alloc.rs)

The in-memory bitmap is a vector of u64 words, embedded as `List Nat`
(each word kept below 2^64 by the operations themselves, as in u64). -/

/-- Superblock magic ("HVNOS\x01" little-endian). -/
def SUPERBLOCK_MAGIC : Nat := 0x000001534F4E5648

/-- Test bit idx of the bitmap: bitmap[idx / 64] & (1 << (idx % 64)) != 0. -/
def testBitA (bm : List Nat) (idx : Nat) : Bool :=
  (bm.getD (idx / 64) 0) &&& (1 <<< (idx % 64)) != 0

/-- Set bit idx: bitmap[idx / 64] |= 1 << (idx % 64). -/
def setBitA (bm : List Nat) (idx : Nat) : List Nat :=
  bm.set (idx / 64) ((bm.getD (idx / 64) 0) ||| (1 <<< (idx % 64)))

/-- Clear bit idx: bitmap[idx / 64] &= !(1 << (idx % 64)); the u64
bitwise complement of the mask is (2^64 - 1) XOR the mask. -/
def clearBitA (bm : List Nat) (idx : Nat) : List Nat :=
  bm.set (idx / 64) ((bm.getD (idx / 64) 0) &&& ((2 ^ 64 - 1) ^^^ (1 <<< (idx % 64))))

/-- The marking loop of alloc: set bits start, start+1, ..., start+count-1. -/
def setBits (bm : List Nat) (start : Nat) : Nat → List Nat
  | 0 => bm
  | n + 1 => setBits (setBitA bm start) (start + 1) n

/-- The clearing loop of free: clear bits start, ..., start+count-1. -/
def clearBits (bm : List Nat) (start : Nat) : Nat → List Nat
  | 0 => bm
  | n + 1 => clearBits (clearBitA bm start) (start + 1) n

/-- The inner loop of the alloc scan: the first i < count with bit
(start + i) set, or none if the whole run is free. -/
def firstUsedIn (bm : List Nat) (start count : Nat) : Option Nat :=
  (List.range count).find? (fun i => testBitA bm (start + i))

/-- The outer while loop of alloc: scan for a contiguous run of `count`
free bits starting at or after `start`. The loop advances `start` past
the first used bit of a failed candidate run; a fuel of
total + 1 - start bounds the number of iterations (start strictly
increases and the loop exits once start + count > total). -/
def scanGo (bm : List Nat) (total count : Nat) : Nat → Nat → Option Nat
  | 0, _ => none
  | fuel + 1, start =>
    if start + count ≤ total then
      match firstUsedIn bm start count with
      | none => some start
      | some i => scanGo bm total count fuel (start + i + 1)
    else none

def scanFrom (bm : List Nat) (total count start : Nat) : Option Nat :=
  scanGo bm total count (total + 1 - start) start

/-- Block allocation errors. -/
inductive AllocError where
  | OutOfSpace
  | InvalidSize
  | Fragmented
deriving DecidableEq

/-- In-memory block allocator state. -/
structure BlockAllocator where
  bitmap : List Nat
  data_block_count : Nat
  data_start_lba : Nat
  bitmap_start_lba : Nat
  bitmap_on_disk_blocks : Nat
  block_size : Nat
  free_count : Nat
  dirty : Bool
deriving DecidableEq

/-- BlockAllocator::alloc — allocate `count` contiguous data blocks by
first-fit linear scan; on success mark the bits, decrement free_count,
set dirty and return the starting data-block index. -/
def BlockAllocator.alloc (a : BlockAllocator) (count : Nat) :
    Except AllocError (BlockAllocator × Nat) :=
  if count = 0 then .error .InvalidSize
  else if a.free_count < count then .error .OutOfSpace
  else
    match scanFrom a.bitmap a.data_block_count count 0 with
    | some start =>
        .ok ({ a with
                bitmap := setBits a.bitmap start count,
                free_count := a.free_count - count,
                dirty := true }, start)
    | none => .error .OutOfSpace

/-- BlockAllocator::free — clear `count` bits starting at `start`,
increment free_count, set dirty (release semantics: already-clear bits
are tolerated silently; the debug assertion is a side condition of the
theorems). -/
def BlockAllocator.free (a : BlockAllocator) (start count : Nat) : BlockAllocator :=
  { a with
      bitmap := clearBits a.bitmap start count,
      free_count := a.free_count + count,
      dirty := true }

/-- Number of zero bits in the valid range [0, n) of the bitmap. -/
def zeroBits (bm : List Nat) (n : Nat) : Nat :=
  (List.range n).countP (fun b => !(testBitA bm b))

/-- Structural well-formedness of the allocator: the bitmap covers the
valid range, and the in-RAM free_count matches the zero bits of that
range — the bitmap-consistency invariant. -/
def BlockAllocator.Wf (a : BlockAllocator) : Prop :=
  a.data_block_count ≤ 64 * a.bitmap.length ∧
  a.free_count = zeroBits a.bitmap a.data_block_count

instance (a : BlockAllocator) : Decidable a.Wf := by
  unfold BlockAllocator.Wf; infer_instance

/-- One step of an alloc/free call sequence. -/
inductive AllocOp where
  | alloc (count : Nat)
  | free (start count : Nat)

/-- Apply one call: a failed alloc returns early without mutating. -/
def applyOp (a : BlockAllocator) : AllocOp → BlockAllocator
  | .alloc c =>
      match a.alloc c with
      | .ok (a1, _) => a1
      | .error _ => a
  | .free s c => a.free s c

def applyOps (a : BlockAllocator) (ops : List AllocOp) : BlockAllocator :=
  ops.foldl applyOp a

/-- The debug assertion of BlockAllocator::free and the bounds check of
the bitmap index, at the moment of one call. -/
def freeOk (a : BlockAllocator) : AllocOp → Prop
  | .alloc _ => True
  | .free s c => s + c ≤ a.data_block_count ∧ ∀ i < c, testBitA a.bitmap (s + i) = true

instance (a : BlockAllocator) : (op : AllocOp) → Decidable (freeOk a op)
  | .alloc _ => isTrue trivial
  | .free _ _ => inferInstanceAs (Decidable (_ ∧ _))

/-- A sequence is crash-free when every free hits only in-range,
currently-set bits at the state in which it executes. -/
def NoCrash : BlockAllocator → List AllocOp → Prop
  | _, [] => True
  | a, op :: rest => freeOk a op ∧ NoCrash (applyOp a op) rest

instance noCrashDec : (a : BlockAllocator) → (ops : List AllocOp) → Decidable (NoCrash a ops)
  | _, [] => isTrue trivial
  | a, op :: rest =>
    have : Decidable (NoCrash (applyOp a op) rest) := noCrashDec (applyOp a op) rest
    inferInstanceAs (Decidable (_ ∧ _))

/-! ## File table (src/kernel/src/storage/file_table.rs)

File names are byte strings embedded as `List Nat`; the fixed 64-byte
name array of an entry is a list whose length-64 invariant is carried
by the theorems that need it. -/

def MAX_NAME_LEN : Nat := 64
def MAX_ENTRIES : Nat := 42

/-- A single file table entry (96 bytes on disk). -/
structure FileEntry where
  name : List Nat
  start_block : Nat
  block_count : Nat
  byte_length : Nat
  flags : Nat
deriving DecidableEq

/-- FileEntry::empty — zeroed entry. -/
def FileEntry.empty : FileEntry :=
  { name := List.replicate MAX_NAME_LEN 0, start_block := 0, block_count := 0,
    byte_length := 0, flags := 0 }

/-- FileEntry::is_in_use — flags bit 0. -/
def FileEntry.is_in_use (e : FileEntry) : Bool :=
  e.flags &&& 1 != 0

/-- FileEntry::name_bytes — the stored name up to the first null
(the whole array if no null occurs). -/
def FileEntry.name_bytes (e : FileEntry) : List Nat :=
  e.name.takeWhile (fun b => b != 0)

/-- FileEntry::set_name — copy at most 63 bytes of the name, write a
null terminator right after, and leave the tail of the array as it was. -/
def FileEntry.set_name (e : FileEntry) (name : List Nat) : FileEntry :=
  let copy_len := min name.length (MAX_NAME_LEN - 1)
  { e with name := name.take copy_len ++ [0] ++ e.name.drop (copy_len + 1) }

/-- In-memory file table. -/
structure FileTable where
  entries : List FileEntry
  file_table_lba : Nat
  block_size : Nat
  dirty : Bool
deriving DecidableEq

/-- The scan loop of FileTable::lookup, carrying the running index. -/
def lookupGo (name : List Nat) : List FileEntry → Nat → Option (Nat × FileEntry)
  | [], _ => none
  | e :: rest, i =>
    if e.is_in_use ∧ e.name_bytes = name then some (i, e)
    else lookupGo name rest (i + 1)

/-- FileTable::lookup — first in-use entry whose name_bytes equal the
queried name, with its index. -/
def FileTable.lookup (ft : FileTable) (name : List Nat) : Option (Nat × FileEntry) :=
  lookupGo name ft.entries 0

/-- The per-entry condition of the lookup scan. -/
def entryMatches (name : List Nat) (e : FileEntry) : Prop :=
  e.is_in_use = true ∧ e.name_bytes = name

instance (name : List Nat) (e : FileEntry) : Decidable (entryMatches name e) := by
  unfold entryMatches; infer_instance

/-- The free-slot scan of FileTable::create (iter().position on the
not-in-use predicate), carrying the running index. -/
def findFreeSlot : List FileEntry → Nat → Option Nat
  | [], _ => none
  | e :: rest, i => if e.is_in_use then findFreeSlot rest (i + 1) else some i

/-- FileTable::create — fill the first not-in-use slot: set_name, set
the extent, zero byte_length, set the in-use bit, mark dirty. Returns
the updated table and the slot index. -/
def FileTable.create (ft : FileTable) (name : List Nat) (start_block block_count : Nat) :
    Option (FileTable × Nat) :=
  match findFreeSlot ft.entries 0 with
  | none => none
  | some slot =>
    let e := ft.entries.getD slot FileEntry.empty
    let e1 := e.set_name name
    let e2 := { e1 with
                  start_block := start_block,
                  block_count := block_count,
                  byte_length := 0,
                  flags := e1.flags ||| 1 }
    some ({ ft with entries := ft.entries.set slot e2, dirty := true }, slot)

/-- The get_mut-then-assign pattern of the VFS: if the indexed entry
exists and is in use, update it with f and mark the table dirty;
otherwise leave the table unchanged. -/
def FileTable.modifyEntry (ft : FileTable) (idx : Nat) (f : FileEntry → FileEntry) : FileTable :=
  if idx < MAX_ENTRIES ∧ (ft.entries.getD idx FileEntry.empty).is_in_use then
    { ft with entries := ft.entries.set idx (f (ft.entries.getD idx FileEntry.empty)),
              dirty := true }
  else ft

/-! ## SQLite VFS adapter (src/kernel/src/vfs/sqlite_vfs.rs)

The device contents are embedded as a byte-addressed function
disk : Nat → Nat (byte at absolute address lba * block_size + i).
Device failures are injected through oracles fR / fW (arguments: start
LBA and block count of the command) and a flush-failure flag; heap/DMA
allocation is assumed to succeed. -/

/-- Per-open-file state (struct HeavenFile). -/
structure HeavenFile where
  file_table_index : Nat
  start_lba : Nat
  block_count : Nat
  byte_length : Nat
  block_size : Nat
deriving DecidableEq

/-- Effect of a successful device write of n blocks at lba from a
DMA buffer holding buf. -/
def writeBlocksD (disk : Nat → Nat) (lba n bs : Nat) (buf : Nat → Nat) : Nat → Nat :=
  fun a => if lba * bs ≤ a ∧ a < lba * bs + n * bs then buf (a - lba * bs) else disk a

/-- HeavenVfs::read — returns the bytes delivered into the caller's
buffer of length `amount` and the SQLite return code. -/
def HeavenVfs.read (disk : Nat → Nat) (file : HeavenFile) (amount offset : Nat) :
    List Nat × Int :=
  let bs := file.block_size
  if file.byte_length ≤ offset then
    (List.replicate amount 0, SQLITE_IOERR_SHORT_READ)
  else
    let available := file.byte_length - offset
    let to_read := min amount available
    let start_block := offset / bs
    let end_block := (offset + to_read - 1) / bs
    let block_count := end_block - start_block + 1
    if file.block_count < start_block + block_count then
      (List.replicate amount 0, SQLITE_IOERR_SHORT_READ)
    else
      let start_lba := file.start_lba + start_block
      let boff := offset % bs
      let main := (List.range to_read).map (fun i => disk (start_lba * bs + boff + i))
      if to_read < amount then
        (main ++ List.replicate (amount - to_read) 0, SQLITE_IOERR_SHORT_READ)
      else (main, SQLITE_OK)

/-- The device read command issued by HeavenVfs::read, as (start LBA,
block count); none when the call zero-fills and returns without I/O. -/
def HeavenVfs.readDeviceIO (file : HeavenFile) (amount offset : Nat) : Option (Nat × Nat) :=
  let bs := file.block_size
  if file.byte_length ≤ offset then none
  else
    let available := file.byte_length - offset
    let to_read := min amount available
    let start_block := offset / bs
    let end_block := (offset + to_read - 1) / bs
    let block_count := end_block - start_block + 1
    if file.block_count < start_block + block_count then none
    else some (file.start_lba + start_block, block_count)

/-- Combined mutable state a VFS write / truncate call touches. -/
structure WState where
  disk : Nat → Nat
  handle : HeavenFile
  ft : FileTable
  alloc : BlockAllocator

/-- The relocation copy loop of HeavenVfs::write: copy old blocks one
at a time (device read of block src+blk, device write of block
dst+blk), stopping at the first device failure. `blk` is the current
block, the second Nat the remaining count. -/
def copyBlocks (fR fW : Nat → Nat → Bool) (bs src dst : Nat) :
    Nat → Nat → (Nat → Nat) → Except Int (Nat → Nat)
  | _, 0, disk => .ok disk
  | blk, n + 1, disk =>
    if fR (src + blk) 1 then .error SQLITE_IOERR_READ
    else if fW (dst + blk) 1 then .error SQLITE_IOERR_WRITE
    else copyBlocks fR fW bs src dst (blk + 1) n
          (writeBlocksD disk (dst + blk) 1 bs (fun i => disk ((src + blk) * bs + i)))

/-- The aligned / read-modify-write tail of HeavenVfs::write (after any
growth), including the final byte_length bump. -/
def doWritePart (fR fW : Nat → Nat → Bool) (st : WState) (data : List Nat) (offset : Nat) :
    WState × Int :=
  let file := st.handle
  let amount := data.length
  let bs := file.block_size
  let start_block := offset / bs
  let end_block := (offset + amount - 1) / bs
  let block_count := end_block - start_block + 1
  let start_lba := file.start_lba + start_block
  let boff := offset % bs
  let bump : HeavenFile → HeavenFile := fun f =>
    if f.byte_length < offset + amount then { f with byte_length := offset + amount } else f
  if boff = 0 ∧ amount % bs = 0 then
    if fW start_lba block_count then (st, SQLITE_IOERR_WRITE)
    else
      let dma : Nat → Nat := fun i => if i < amount then data.getD i 0 else 0
      ({ st with disk := writeBlocksD st.disk start_lba block_count bs dma,
                 handle := bump file }, SQLITE_OK)
  else
    if fR start_lba block_count then (st, SQLITE_IOERR_READ)
    else
      let dma0 : Nat → Nat := fun i => st.disk (start_lba * bs + i)
      let dma1 : Nat → Nat := fun i =>
        if boff ≤ i ∧ i < boff + amount then data.getD (i - boff) 0 else dma0 i
      if fW start_lba block_count then (st, SQLITE_IOERR_WRITE)
      else
        ({ st with disk := writeBlocksD st.disk start_lba block_count bs dma1,
                   handle := bump file }, SQLITE_OK)

/-- HeavenVfs::write — grow by relocation when the write extends past
the allocated extent (alloc new extent, copy old blocks, flush, swap
metadata, free old extent; any device failure frees the new extent and
returns the corresponding error), then perform the aligned or RMW
write. fFlush injects a failure of the relocation flush. -/
def HeavenVfs.write (fR fW : Nat → Nat → Bool) (fFlush : Bool) (st : WState)
    (data : List Nat) (offset : Nat) : WState × Int :=
  let file := st.handle
  let amount := data.length
  let bs := file.block_size
  let start_block := offset / bs
  let end_block := (offset + amount - 1) / bs
  let block_count := end_block - start_block + 1
  if file.block_count < start_block + block_count then
    let needed := start_block + block_count
    match st.alloc.alloc needed with
    | .error _ => (st, SQLITE_FULL)
    | .ok (alloc1, new_start_block) =>
      let old_data_start := file.start_lba
      let old_start_block := file.start_lba - alloc1.data_start_lba
      let old_block_count := file.block_count
      let new_data_start := alloc1.data_start_lba + new_start_block
      match copyBlocks fR fW bs old_data_start new_data_start 0 old_block_count st.disk with
      | .error e => ({ st with alloc := alloc1.free new_start_block needed }, e)
      | .ok disk1 =>
        if fFlush then
          ({ st with disk := disk1, alloc := alloc1.free new_start_block needed },
           SQLITE_IOERR_FSYNC)
        else
          let file1 := { file with start_lba := new_data_start, block_count := needed }
          let ft1 := st.ft.modifyEntry file.file_table_index
            (fun e => { e with start_block := new_start_block, block_count := needed })
          let alloc2 := alloc1.free old_start_block old_block_count
          doWritePart fR fW { disk := disk1, handle := file1, ft := ft1, alloc := alloc2 }
            data offset
  else
    doWritePart fR fW st data offset

/-- HeavenVfs::truncate. -/
def HeavenVfs.truncate (st : WState) (size : Nat) : WState × Int :=
  let file := st.handle
  if file.byte_length < size then (st, SQLITE_OK)
  else
    let file1 := { file with byte_length := size }
    let bs := file.block_size
    let needed_blocks := if size = 0 then 1 else (size + bs - 1) / bs
    if needed_blocks < file1.block_count then
      let old_start_block := file1.start_lba - st.alloc.data_start_lba
      let excess_start := old_start_block + needed_blocks
      let excess_count := file1.block_count - needed_blocks
      let alloc1 := st.alloc.free excess_start excess_count
      let file2 := { file1 with block_count := needed_blocks }
      let ft1 := st.ft.modifyEntry file.file_table_index
        (fun e => { e with block_count := needed_blocks, byte_length := size })
      ({ st with handle := file2, ft := ft1, alloc := alloc1 }, SQLITE_OK)
    else ({ st with handle := file1 }, SQLITE_OK)

/-! ## Format / load round trip (src/kernel/src/storage/block_alloc.rs)

The device is a byte-addressed function; the repr(C) superblock is
serialized little-endian at its C field offsets. -/

/-- NVMe driver error taxonomy (the variants the storage layer uses). -/
inductive NvmeError where
  | NotInitialized
  | OutOfMemory
  | MediaError
deriving DecidableEq

/-- On-disk superblock fields (the 4008 padding bytes are zeros). -/
structure Superblock where
  magic : Nat
  version : Nat
  block_size : Nat
  total_blocks : Nat
  bitmap_start_lba : Nat
  bitmap_block_count : Nat
  file_table_start_lba : Nat
  file_table_block_count : Nat
  data_start_lba : Nat
  data_block_count : Nat
deriving DecidableEq

/-- Superblock::is_valid. -/
def Superblock.is_valid (sb : Superblock) : Bool :=
  sb.magic == SUPERBLOCK_MAGIC && sb.version == 1

/-- Byte i of the repr(C) serialization of the superblock: u64 magic at
offset 0, u32 version at 8, u32 block_size at 12, then six u64 fields
at 16..72, zero padding beyond. Bytes are little-endian. -/
def sbByte (sb : Superblock) (i : Nat) : Nat :=
  if i < 8 then sb.magic / 256 ^ i % 256
  else if i < 12 then sb.version / 256 ^ (i - 8) % 256
  else if i < 16 then sb.block_size / 256 ^ (i - 12) % 256
  else if i < 24 then sb.total_blocks / 256 ^ (i - 16) % 256
  else if i < 32 then sb.bitmap_start_lba / 256 ^ (i - 24) % 256
  else if i < 40 then sb.bitmap_block_count / 256 ^ (i - 32) % 256
  else if i < 48 then sb.file_table_start_lba / 256 ^ (i - 40) % 256
  else if i < 56 then sb.file_table_block_count / 256 ^ (i - 48) % 256
  else if i < 64 then sb.data_start_lba / 256 ^ (i - 56) % 256
  else if i < 72 then sb.data_block_count / 256 ^ (i - 64) % 256
  else 0

/-- Little-endian decode of n bytes read through f starting at off
(u64::from_le_bytes / the repr(C) pointer cast on load). -/
def leDec (f : Nat → Nat) (off : Nat) : Nat → Nat
  | 0 => 0
  | n + 1 => f off + 256 * leDec f (off + 1) n

/-- Deserialize the superblock from the bytes of device block 0
(the pointer cast in BlockAllocator::load). -/
def deserSB (f : Nat → Nat) : Superblock :=
  { magic := leDec f 0 8,
    version := leDec f 8 4,
    block_size := leDec f 12 4,
    total_blocks := leDec f 16 8,
    bitmap_start_lba := leDec f 24 8,
    bitmap_block_count := leDec f 32 8,
    file_table_start_lba := leDec f 40 8,
    file_table_block_count := leDec f 48 8,
    data_start_lba := leDec f 56 8,
    data_block_count := leDec f 64 8 }

/-- The loop of format that writes zeroed bitmap blocks at LBAs
lba, lba+1, ..., one block at a time. -/
def zeroBlocksLoop (disk : Nat → Nat) (bs lba : Nat) : Nat → (Nat → Nat)
  | 0 => disk
  | n + 1 => zeroBlocksLoop (writeBlocksD disk lba 1 bs (fun _ => 0)) bs (lba + 1) n

/-- BlockAllocator::format — compute the layout, write the superblock
at LBA 0 (its 4096 bytes followed by zeros up to the block size), write
zeroed bitmap blocks and a zeroed file-table block, and build the
in-memory allocator (all free). Returns the device contents and the
allocator. -/
def BlockAllocator.format (disk : Nat → Nat) (total_blocks block_size : Nat) :
    (Nat → Nat) × BlockAllocator :=
  let data_bits_per_block := block_size * 8
  let overhead := 1
  let file_table_blocks := 1
  let approx_data := total_blocks - overhead - file_table_blocks
  let bitmap_blocks := (approx_data + data_bits_per_block - 1) / data_bits_per_block
  let data_start := overhead + bitmap_blocks + file_table_blocks
  let data_blocks := total_blocks - data_start
  let sb : Superblock :=
    { magic := SUPERBLOCK_MAGIC, version := 1, block_size := block_size,
      total_blocks := total_blocks, bitmap_start_lba := 1,
      bitmap_block_count := bitmap_blocks, file_table_start_lba := 1 + bitmap_blocks,
      file_table_block_count := file_table_blocks, data_start_lba := data_start,
      data_block_count := data_blocks }
  let disk1 := writeBlocksD disk 0 1 block_size
    (fun i => if i < 4096 then sbByte sb i else 0)
  let disk2 := zeroBlocksLoop disk1 block_size 1 bitmap_blocks
  let disk3 := writeBlocksD disk2 (1 + bitmap_blocks) 1 block_size (fun _ => 0)
  let bitmap_words := (data_blocks + 63) / 64
  (disk3,
   { bitmap := List.replicate bitmap_words 0,
     data_block_count := data_blocks,
     data_start_lba := data_start,
     bitmap_start_lba := 1,
     bitmap_on_disk_blocks := bitmap_blocks,
     block_size := block_size,
     free_count := data_blocks,
     dirty := false })

/-- u64::count_ones. -/
def popcount64 (w : Nat) : Nat :=
  (List.range 64).countP (fun b => w.testBit b)

/-- The bitmap-reading double loop of load: word j of the in-RAM bitmap
comes from the on-disk bitmap block j / words_per_block (when that
block is within bitmap_block_count; words past the read region keep
their vec![0] initialization). -/
def loadBitmap (disk : Nat → Nat) (bs start_lba block_cnt words : Nat) : List Nat :=
  (List.range words).map (fun j =>
    let wpb := bs / 8
    if j / wpb < block_cnt then
      leDec (fun i => disk ((start_lba + j / wpb) * bs + i)) (j % wpb * 8) 8
    else 0)

/-- The free-count fold of load: per word, the number of valid bits
(the last word holds the data_block_count % 64 remainder) minus its
popcount, summed. -/
def loadFreeCount (bitmap : List Nat) (n : Nat) : Nat :=
  let words := bitmap.length
  ((List.range words).map (fun i =>
    let valid_bits := if i = words - 1 then (if n % 64 = 0 then 64 else n % 64) else 64
    valid_bits - popcount64 (bitmap.getD i 0))).sum

/-- BlockAllocator::load — read and validate the superblock from block
0, read the bitmap into RAM, recompute free_count by popcount over the
valid bits. block_size comes from the NVMe namespace, not the
superblock. -/
def BlockAllocator.load (disk : Nat → Nat) (block_size : Nat) :
    Except NvmeError BlockAllocator :=
  let sb := deserSB (fun i => disk i)
  if sb.is_valid then
    let bitmap_words := (sb.data_block_count + 63) / 64
    let bitmap := loadBitmap disk block_size sb.bitmap_start_lba sb.bitmap_block_count
      bitmap_words
    .ok { bitmap := bitmap,
          data_block_count := sb.data_block_count,
          data_start_lba := sb.data_start_lba,
          bitmap_start_lba := sb.bitmap_start_lba,
          bitmap_on_disk_blocks := sb.bitmap_block_count,
          block_size := block_size,
          free_count := loadFreeCount bitmap sb.data_block_count,
          dirty := false }
  else .error .MediaError

instance {ε α : Type} [DecidableEq ε] [DecidableEq α] : DecidableEq (Except ε α) :=
  fun x y =>
    match x, y with
    | .ok a, .ok b =>
      if h : a = b then .isTrue (h ▸ rfl) else .isFalse (fun hc => h (Except.ok.inj hc))
    | .error a, .error b =>
      if h : a = b then .isTrue (h ▸ rfl)
      else .isFalse (fun hc => h (Except.error.inj hc))
    | .ok _, .error _ => .isFalse (fun hc => Except.noConfusion hc)
    | .error _, .ok _ => .isFalse (fun hc => Except.noConfusion hc)

/-! ## Concrete states used by the witness and counterexample theorems -/

def pollQ0 : QueuePair :=
  { cq := fun _ => ⟨0, 0, 0, 3⟩, cq_head := 0, size := 2, cq_phase := true }

def shmL0 : List ShmLockState :=
  (List.replicate SQLITE_SHM_NLOCK shmDefault).set 2 { shared_count := 0, exclusive := true }

def c9ft : FileTable :=
  { entries := List.replicate MAX_ENTRIES FileEntry.empty, file_table_lba := 2,
    block_size := 4096, dirty := false }

def c9name : List Nat := [104, 105]

def c9pair : FileTable × Nat := (c9ft.create c9name 3 16).getD (c9ft, 0)

/-- A small open file: 2 blocks of 8 bytes at LBA 5, 10 bytes long. -/
def rfile : HeavenFile :=
  { file_table_index := 0, start_lba := 5, block_count := 2, byte_length := 10,
    block_size := 8 }

def rdisk : Nat → Nat := fun a => a % 251

def emptyFt : FileTable :=
  { entries := List.replicate MAX_ENTRIES FileEntry.empty, file_table_lba := 2,
    block_size := 4096, dirty := false }

/-- Allocator with data blocks [0, 16) in use out of 32, 4096-byte blocks. -/
def trAlloc : BlockAllocator :=
  { bitmap := [0xFFFF], data_block_count := 32, data_start_lba := 10,
    bitmap_start_lba := 1, bitmap_on_disk_blocks := 1, block_size := 4096,
    free_count := 16, dirty := false }

/-- A 16-block file of 100 bytes for the truncate claims. -/
def trSt : WState :=
  { disk := rdisk,
    handle := { file_table_index := 0, start_lba := 10, block_count := 16,
                byte_length := 100, block_size := 4096 },
    ft := emptyFt, alloc := trAlloc }

/-- Allocator with data block 0 in use out of 4, 2-byte blocks. -/
def grAlloc : BlockAllocator :=
  { bitmap := [1], data_block_count := 4, data_start_lba := 10,
    bitmap_start_lba := 1, bitmap_on_disk_blocks := 1, block_size := 2,
    free_count := 3, dirty := false }

/-- A 1-block file of 2 bytes whose next write forces relocation. -/
def grSt : WState :=
  { disk := rdisk,
    handle := { file_table_index := 0, start_lba := 10, block_count := 1,
                byte_length := 2, block_size := 2 },
    ft := emptyFt, alloc := grAlloc }

/-- WState for the RMW witness: rfile over rdisk. -/
def rmwSt : WState :=
  { disk := rdisk, handle := rfile, ft := emptyFt, alloc := trAlloc }

/-- Allocator over 8 blocks, all free. -/
def c3Alloc : BlockAllocator :=
  { bitmap := [0], data_block_count := 8, data_start_lba := 10,
    bitmap_start_lba := 1, bitmap_on_disk_blocks := 1, block_size := 4096,
    free_count := 8, dirty := false }

/-- A crash-free alloc/free call sequence on c3Alloc. -/
def c3Ops : List AllocOp := [.alloc 3, .free 0 2, .alloc 1]

/-! # Theorems -/

/-! ## C7: completion polling -/

/-- C7: for every queue-pair state, poll_completion reads the entry at
cq_head; on a phase mismatch it returns None leaving the state
unchanged; on a match it advances cq_head by one modulo the queue size,
toggles the expected phase exactly when the head wraps to zero, and
returns the 15-bit status field (bits 15:1 of cid_status) of that
entry. -/
theorem poll_completion_spec (q : QueuePair) (hsz : 0 < q.size) :
    ((q.cq q.cq_head).phase ≠ q.cq_phase → q.poll_completion = (q, none)) ∧
    ((q.cq q.cq_head).phase = q.cq_phase →
      q.poll_completion.1.cq_head = (q.cq_head + 1) % q.size ∧
      q.poll_completion.1.cq_phase =
        (if (q.cq_head + 1) % q.size = 0 then !q.cq_phase else q.cq_phase) ∧
      q.poll_completion.1.cq = q.cq ∧
      q.poll_completion.1.size = q.size ∧
      q.poll_completion.2 = some ((q.cq q.cq_head).status) ∧
      (q.cq q.cq_head).status < 2 ^ 15) := by
  refine ⟨fun h => ?_, fun h => ?_⟩
  · simp [QueuePair.poll_completion, h]
  · refine ⟨?_, ?_, ?_, ?_, ?_, ?_⟩ <;>
      simp [QueuePair.poll_completion, h, CompletionEntry.status]
    exact lt_of_le_of_lt Nat.and_le_right (by norm_num)

/-- Witness for C7 at a concrete queue state. -/
theorem poll_completion_spec_witness :
    pollQ0.poll_completion.2 = some ((pollQ0.cq pollQ0.cq_head).status) :=
  ((poll_completion_spec pollQ0 (by decide)).2 (by decide)).2.2.2.2.1

/-! ## C8: shm_lock rollback -/

theorem shmSlot_set_self (l : List ShmLockState) (i : Nat) (v : ShmLockState)
    (h : i < l.length) : shmSlot (l.set i v) i = v := by
  simp [shmSlot, List.getD_eq_getElem?_getD, List.getElem?_set_eq_of_lt _ h]

theorem shmSlot_set_ne (l : List ShmLockState) (i j : Nat) (v : ShmLockState)
    (h : i ≠ j) : shmSlot (l.set i v) j = shmSlot l j := by
  simp [shmSlot, List.getD_eq_getElem?_getD, List.getElem?_set_ne h]

theorem shmSlot_ext (a b : List ShmLockState) (hlen : a.length = b.length)
    (h : ∀ j, shmSlot a j = shmSlot b j) : a = b := by
  apply List.ext_getElem hlen
  intro i h1 h2
  have hj := h i
  simpa [shmSlot, List.getD_eq_getElem?_getD, List.getElem?_eq_getElem, h1, h2] using hj

/-- The try_ call of the acquisition loop succeeds exactly on
non-conflicting slots, and then produces shmAcquire of the slot. -/
theorem shmTry_eq (excl : Bool) (s : ShmLockState) :
    (if excl then s.try_exclusive else s.try_shared) =
      if shmConflict excl s then none else some (shmAcquire excl s) := by
  cases excl <;>
    simp [ShmLockState.try_shared, ShmLockState.try_exclusive, shmConflict, shmAcquire]

/-- Releasing an acquisition restores a non-conflicting slot exactly. -/
theorem shmRelease_shmAcquire (excl : Bool) (s : ShmLockState)
    (h : ¬ shmConflict excl s) :
    (if excl then (shmAcquire excl s).release_exclusive
     else (shmAcquire excl s).release_shared) = s := by
  cases s with
  | mk sc ex =>
    cases excl
    · simp [shmConflict] at h
      simp [shmAcquire, ShmLockState.release_shared]
    · simp [shmConflict] at h
      simp [shmAcquire, ShmLockState.release_exclusive, h.1, h.2]

theorem shmRollback_length (excl : Bool) (l : List ShmLockState) (start : Nat) :
    ∀ cnt, (shmRollback excl l start cnt).length = l.length := by
  intro cnt
  induction cnt with
  | zero => rfl
  | succ m ih => simp [shmRollback, ih]

/-- Pointwise effect of the rollback loop. -/
theorem shmRollback_slot (excl : Bool) (l : List ShmLockState) (start : Nat) :
    ∀ cnt, start + cnt ≤ l.length →
      ∀ j, shmSlot (shmRollback excl l start cnt) j =
        if start ≤ j ∧ j < start + cnt then
          (if excl then (shmSlot l j).release_exclusive else (shmSlot l j).release_shared)
        else shmSlot l j := by
  intro cnt
  induction cnt with
  | zero =>
    intro _ j
    simp only [shmRollback]
    rw [if_neg (by omega)]
  | succ m ih =>
    intro hle j
    have hm : start + m ≤ l.length := by omega
    have hlen : (shmRollback excl l start m).length = l.length :=
      shmRollback_length excl l start m
    by_cases hj : j = start + m
    · subst hj
      have hlt : start + m < (shmRollback excl l start m).length := by omega
      simp only [shmRollback, shmSlot_set_self _ _ _ hlt]
      rw [ih hm (start + m)]
      rw [if_neg (show ¬ (start ≤ start + m ∧ start + m < start + m) by omega)]
      rw [if_pos (show start ≤ start + m ∧ start + m < start + (m + 1) by omega)]
    · simp only [shmRollback, shmSlot_set_ne _ _ _ _ (fun h => hj h.symm)]
      rw [ih hm j]
      by_cases h1 : start ≤ j ∧ j < start + m
      · rw [if_pos h1, if_pos (show start ≤ j ∧ j < start + (m + 1) by omega)]
      · rw [if_neg h1, if_neg (show ¬ (start ≤ j ∧ j < start + (m + 1)) by omega)]

/-- The acquisition loop on a conflict-free range: returns Ok and
acquires exactly the slots [i, i+n). -/
theorem shmLockGo_no_conflict (excl : Bool) (start : Nat) :
    ∀ n i l, i + n ≤ SQLITE_SHM_NLOCK → l.length = SQLITE_SHM_NLOCK →
      (∀ k, k < n → ¬ shmConflict excl (shmSlot l (i + k))) →
      (shmLockGo excl start i n l).2 = SQLITE_OK ∧
      (shmLockGo excl start i n l).1.length = SQLITE_SHM_NLOCK ∧
      ∀ j, shmSlot (shmLockGo excl start i n l).1 j =
        if i ≤ j ∧ j < i + n then shmAcquire excl (shmSlot l j) else shmSlot l j := by
  have h8 : SQLITE_SHM_NLOCK = 8 := rfl
  intro n
  induction n with
  | zero =>
    intro i l _ hlen _
    refine ⟨rfl, hlen, fun j => ?_⟩
    simp only [shmLockGo]
    rw [if_neg (by omega)]
  | succ m ih =>
    intro i l hle hlen hfree
    have hi : ¬ SQLITE_SHM_NLOCK ≤ i := by omega
    have h0 : ¬ shmConflict excl (shmSlot l i) := by
      have := hfree 0 (by omega); simpa using this
    have hstep :
        shmLockGo excl start i (m + 1) l =
          shmLockGo excl start (i + 1) m (l.set i (shmAcquire excl (shmSlot l i))) := by
      simp only [shmLockGo, if_neg hi, shmTry_eq, if_neg h0]
    have hilt : i < l.length := by omega
    have hrec := ih (i + 1) (l.set i (shmAcquire excl (shmSlot l i)))
      (by omega) (by simpa using hlen)
      (by
        intro k hk
        rw [shmSlot_set_ne _ _ _ _ (by omega)]
        have := hfree (k + 1) (by omega)
        simpa [Nat.add_assoc, Nat.add_comm 1 k] using this)
    rw [hstep]
    refine ⟨hrec.1, hrec.2.1, fun j => ?_⟩
    rw [hrec.2.2 j]
    by_cases hj : j = i
    · rw [if_neg (show ¬ (i + 1 ≤ j ∧ j < i + 1 + m) by omega)]
      rw [if_pos (show i ≤ j ∧ j < i + (m + 1) by omega)]
      rw [hj, shmSlot_set_self _ _ _ hilt]
    · rw [shmSlot_set_ne _ _ _ _ (fun h => hj h.symm)]
      by_cases h1 : i + 1 ≤ j ∧ j < i + 1 + m
      · rw [if_pos h1, if_pos (show i ≤ j ∧ j < i + (m + 1) by omega)]
      · rw [if_neg h1, if_neg (show ¬ (i ≤ j ∧ j < i + (m + 1)) by omega)]

/-- The acquisition loop with a conflict ahead: rolls the acquired
prefix back to the original slots and returns Busy. `c` is the current
list (the original `l` with [start, i) acquired). -/
theorem shmLockGo_busy (excl : Bool) (start : Nat) :
    ∀ n i l c, start ≤ i → i + n ≤ SQLITE_SHM_NLOCK →
      l.length = SQLITE_SHM_NLOCK → c.length = SQLITE_SHM_NLOCK →
      (∀ j, start ≤ j ∧ j < i →
        ¬ shmConflict excl (shmSlot l j) ∧ shmSlot c j = shmAcquire excl (shmSlot l j)) →
      (∀ j, ¬ (start ≤ j ∧ j < i) → shmSlot c j = shmSlot l j) →
      (∃ k, k < n ∧ shmConflict excl (shmSlot l (i + k))) →
      shmLockGo excl start i n c = (l, SQLITE_BUSY) := by
  have h8 : SQLITE_SHM_NLOCK = 8 := rfl
  intro n
  induction n with
  | zero =>
    intro i l c _ _ _ _ _ _ hex
    obtain ⟨k, hk, _⟩ := hex
    omega
  | succ m ih =>
    intro i l c hsi hle hlen hclen hpre hout hex
    have hi : ¬ SQLITE_SHM_NLOCK ≤ i := by omega
    have hci : shmSlot c i = shmSlot l i := hout i (by omega)
    by_cases hconf : shmConflict excl (shmSlot l i)
    · have hstep :
          shmLockGo excl start i (m + 1) c =
            (shmRollback excl c start (i - start), SQLITE_BUSY) := by
        simp only [shmLockGo, if_neg hi, hci, shmTry_eq, if_pos hconf]
      rw [hstep]
      have hrb : shmRollback excl c start (i - start) = l := by
        apply shmSlot_ext
        · rw [shmRollback_length]; omega
        · intro j
          rw [shmRollback_slot excl c start (i - start) (by omega) j]
          by_cases h1 : start ≤ j ∧ j < start + (i - start)
          · have hj : start ≤ j ∧ j < i := ⟨h1.1, by omega⟩
            rw [if_pos h1, (hpre j hj).2, shmRelease_shmAcquire excl _ (hpre j hj).1]
          · rw [if_neg h1]
            exact hout j (by omega)
      rw [hrb]
    · have hstep :
          shmLockGo excl start i (m + 1) c =
            shmLockGo excl start (i + 1) m (c.set i (shmAcquire excl (shmSlot l i))) := by
        simp only [shmLockGo, if_neg hi, hci, shmTry_eq, if_neg hconf]
      rw [hstep]
      have hcilt : i < c.length := by omega
      apply ih (i + 1) l (c.set i (shmAcquire excl (shmSlot l i)))
        (by omega) (by omega) hlen (by simpa using hclen)
      · intro j hj
        by_cases hji : j = i
        · subst hji
          exact ⟨hconf, shmSlot_set_self _ _ _ hcilt⟩
        · rw [shmSlot_set_ne _ _ _ _ (fun h => hji h.symm)]
          exact hpre j ⟨hj.1, by omega⟩
      · intro j hj
        rw [shmSlot_set_ne _ _ _ _ (show i ≠ j by omega)]
        exact hout j (by omega)
      · obtain ⟨k, hk, hkconf⟩ := hex
        have hk0 : k ≠ 0 := by
          intro h0; subst h0; simp at hkconf; exact hconf hkconf
        refine ⟨k - 1, by omega, ?_⟩
        have hik : i + 1 + (k - 1) = i + k := by omega
        rw [hik]; exact hkconf

/-- C8: a lock request over slots [offset, offset+n): when some slot of
the range conflicts (exclusive request on an exclusive or shared slot;
shared request on an exclusive slot) the call returns Busy and every
slot — including those acquired earlier in the same call — is back in
its pre-call state; when no slot conflicts the call acquires all n
slots and returns Ok. -/
theorem shm_lock_spec (excl : Bool) (offset n : Nat) (l : List ShmLockState)
    (hlen : l.length = SQLITE_SHM_NLOCK) (hrange : offset + n ≤ SQLITE_SHM_NLOCK) :
    ((∃ k, k < n ∧ shmConflict excl (shmSlot l (offset + k))) →
      shm_lock_acquire excl offset n l = (l, SQLITE_BUSY)) ∧
    ((∀ k, k < n → ¬ shmConflict excl (shmSlot l (offset + k))) →
      (shm_lock_acquire excl offset n l).2 = SQLITE_OK ∧
      ∀ j, shmSlot (shm_lock_acquire excl offset n l).1 j =
        if offset ≤ j ∧ j < offset + n then shmAcquire excl (shmSlot l j)
        else shmSlot l j) := by
  constructor
  · intro hex
    exact shmLockGo_busy excl offset n offset l l (le_refl _) hrange hlen hlen
      (fun j hj => absurd hj (by omega)) (fun j _ => rfl) hex
  · intro hfree
    have h := shmLockGo_no_conflict excl offset n offset l hrange hlen hfree
    exact ⟨h.1, h.2.2⟩

/-- Witness for C8: an exclusive request over slots 1..3 hits the
exclusive holder at slot 2 and rolls back to the pre-call state. -/
theorem shm_lock_spec_witness :
    shm_lock_acquire true 1 2 shmL0 = (shmL0, SQLITE_BUSY) :=
  (shm_lock_spec true 1 2 shmL0 (by decide) (by decide)).1 ⟨1, by decide, by decide⟩

/-! ## C9: file-name truncation in the file table -/

theorem getD_set_self {α : Type} (l : List α) (i : Nat) (v d : α) (h : i < l.length) :
    (l.set i v).getD i d = v := by
  simp [List.getD_eq_getElem?_getD, List.getElem?_set_eq_of_lt _ h]

theorem getD_set_ne {α : Type} (l : List α) (i j : Nat) (v d : α) (h : i ≠ j) :
    (l.set i v).getD j d = l.getD j d := by
  simp [List.getD_eq_getElem?_getD, List.getElem?_set_ne h]

theorem getD_mem {α : Type} (l : List α) (i : Nat) (d : α) (h : i < l.length) :
    l.getD i d ∈ l := by
  rw [List.getD_eq_getElem?_getD, List.getElem?_eq_getElem h]
  exact List.getElem_mem h

/-- A lookup scan that returns none saw no matching entry. -/
theorem lookupGo_none_forall (name : List Nat) :
    ∀ (l : List FileEntry) (base : Nat), lookupGo name l base = none →
      ∀ e ∈ l, ¬ entryMatches name e := by
  intro l
  induction l with
  | nil => intro base _ e he; cases he
  | cons a rest ih =>
    intro base hnone e he
    rw [lookupGo] at hnone
    by_cases hm : a.is_in_use ∧ a.name_bytes = name
    · rw [if_pos hm] at hnone; cases hnone
    · rw [if_neg hm] at hnone
      rcases List.mem_cons.mp he with rfl | he2
      · intro hc; exact hm ⟨hc.1, hc.2⟩
      · exact ih (base + 1) hnone e he2

/-- A scan over entries none of which match returns none. -/
theorem lookupGo_none_of_forall (name : List Nat) :
    ∀ (l : List FileEntry) (base : Nat), (∀ e ∈ l, ¬ entryMatches name e) →
      lookupGo name l base = none := by
  intro l
  induction l with
  | nil => intro base _; rfl
  | cons a rest ih =>
    intro base h
    rw [lookupGo]
    rw [if_neg (fun hc => h a (by simp) ⟨hc.1, hc.2⟩)]
    exact ih (base + 1) (fun e he => h e (List.mem_cons_of_mem a he))

/-- The scan finds the first matching entry, at its index. -/
theorem lookupGo_found (name : List Nat) :
    ∀ (l : List FileEntry) (idx base : Nat), idx < l.length →
      (∀ k, k < idx → ¬ entryMatches name (l.getD k FileEntry.empty)) →
      entryMatches name (l.getD idx FileEntry.empty) →
      lookupGo name l base = some (base + idx, l.getD idx FileEntry.empty) := by
  intro l
  induction l with
  | nil =>
    intro idx base h hb hm
    simp at h
  | cons a rest ih =>
    intro idx base hlen hbefore hmatch
    cases idx with
    | zero =>
      simp only [List.getD_cons_zero] at hmatch ⊢
      rw [lookupGo, if_pos ⟨hmatch.1, hmatch.2⟩]
      simp
    | succ j =>
      have ha : ¬ (a.is_in_use ∧ a.name_bytes = name) := by
        have h0 := hbefore 0 (by omega)
        simp only [List.getD_cons_zero] at h0
        exact fun hc => h0 ⟨hc.1, hc.2⟩
      rw [lookupGo, if_neg ha]
      simp only [List.getD_cons_succ] at hmatch ⊢
      have hrec := ih j (base + 1) (by simp at hlen; omega)
        (fun k hk => by
          have hkk := hbefore (k + 1) (by omega)
          simpa only [List.getD_cons_succ] using hkk)
        hmatch
      rw [hrec]
      have harith : base + 1 + j = base + (j + 1) := by omega
      rw [harith]

/-- The free-slot scan returns the first not-in-use slot. -/
theorem findFreeSlot_spec :
    ∀ (l : List FileEntry) (base i : Nat), findFreeSlot l base = some i →
      ∃ j, i = base + j ∧ j < l.length ∧
        (l.getD j FileEntry.empty).is_in_use = false ∧
        ∀ k, k < j → (l.getD k FileEntry.empty).is_in_use = true := by
  intro l
  induction l with
  | nil => intro base i h; cases h
  | cons a rest ih =>
    intro base i h
    rw [findFreeSlot] at h
    by_cases hu : a.is_in_use
    · rw [if_pos hu] at h
      obtain ⟨j, hij, hjlen, hfree, hbefore⟩ := ih (base + 1) i h
      refine ⟨j + 1, by omega, by simpa using Nat.succ_lt_succ hjlen, by simpa using hfree, ?_⟩
      intro k hk
      cases k with
      | zero => simpa using hu
      | succ k2 =>
        simp only [List.getD_cons_succ]
        exact hbefore k2 (by omega)
    · rw [if_neg hu] at h
      cases h
      exact ⟨0, by omega, by simp, by simpa using hu, fun k hk => by omega⟩

/-- takeWhile passes through a prefix all of whose elements satisfy p. -/
theorem takeWhile_all_append {α : Type} (p : α → Bool) :
    ∀ (l1 l2 : List α), (∀ x ∈ l1, p x = true) →
      (l1 ++ l2).takeWhile p = l1 ++ l2.takeWhile p := by
  intro l1
  induction l1 with
  | nil => intro l2 _; rfl
  | cons a rest ih =>
    intro l2 h
    have ha : p a = true := h a (by simp)
    simp only [List.cons_append, List.takeWhile_cons, ha, if_true]
    rw [ih l2 (fun x hx => h x (List.mem_cons_of_mem a hx))]

/-- takeWhile up to a failing element stays within the prefix. -/
theorem takeWhile_length_le_of_stop {α : Type} (p : α → Bool) (z : α) (hz : p z = false) :
    ∀ (l1 l2 : List α), ((l1 ++ z :: l2).takeWhile p).length ≤ l1.length := by
  intro l1
  induction l1 with
  | nil => intro l2; simp [List.takeWhile_cons, hz]
  | cons a rest ih =>
    intro l2
    simp only [List.cons_append, List.takeWhile_cons]
    by_cases hp : p a = true
    · simp only [hp, if_true, List.length_cons]
      exact Nat.succ_le_succ (ih l2)
    · simp [hp]

/-- set_name with a short, null-free name stores exactly that name. -/
theorem set_name_name_bytes_short (e : FileEntry) (name : List Nat)
    (hlen : name.length ≤ MAX_NAME_LEN - 1) (hnz : ∀ b ∈ name, b ≠ 0) :
    (e.set_name name).name_bytes = name := by
  have hmin : min name.length (MAX_NAME_LEN - 1) = name.length := by omega
  simp only [FileEntry.set_name, FileEntry.name_bytes, hmin, List.take_length]
  rw [show name ++ [0] ++ e.name.drop (name.length + 1) =
        name ++ (0 :: e.name.drop (name.length + 1)) by simp]
  rw [takeWhile_all_append _ name _ (fun x hx => by simpa using hnz x hx)]
  simp [List.takeWhile_cons]

/-- set_name stores at most 63 bytes of the name. -/
theorem set_name_name_bytes_le (e : FileEntry) (name : List Nat) :
    (e.set_name name).name_bytes.length ≤ MAX_NAME_LEN - 1 := by
  unfold FileEntry.set_name FileEntry.name_bytes
  have h := takeWhile_length_le_of_stop (fun b : Nat => b != 0) 0 (by simp)
    (name.take (min name.length (MAX_NAME_LEN - 1)))
    (e.name.drop (min name.length (MAX_NAME_LEN - 1) + 1))
  calc ((name.take (min name.length (MAX_NAME_LEN - 1)) ++ [0] ++
          e.name.drop (min name.length (MAX_NAME_LEN - 1) + 1)).takeWhile
            (fun b => b != 0)).length
      ≤ (name.take (min name.length (MAX_NAME_LEN - 1))).length := by
        simpa using h
    _ ≤ MAX_NAME_LEN - 1 := by
        simp only [List.length_take]
        omega

/-- The in-use bit set by create is visible through is_in_use. -/
theorem or_one_in_use (x : Nat) : (x ||| 1) &&& 1 ≠ 0 := by
  have h1 : (x ||| 1).testBit 0 = true := by
    rw [Nat.testBit_lor]
    simp [Nat.testBit]
  rw [Nat.and_one_is_mod]
  have h2 : (x ||| 1) % 2 = 1 := by
    have h3 := Nat.testBit_zero (x ||| 1)
    rw [h1] at h3
    simpa using h3.symm
  omega

/-- C9: FileTable::create stores at most 63 name bytes plus a null and
lookup compares the stored bytes (up to the first null) to the whole
queried name. Hence, on a table with no entry of that name, create then
lookup with a null-free name of at most 63 bytes finds the created
entry, while create then lookup with a name of 64 bytes or more returns
None (the stored name was truncated to 63 bytes). -/
theorem file_table_name_truncation (ft : FileTable) (name : List Nat)
    (sb bc : Nat) (ft1 : FileTable) (idx : Nat)
    (hpre : ft.lookup name = none)
    (hcreate : ft.create name sb bc = some (ft1, idx)) :
    ((name.length ≤ 63 ∧ ∀ b ∈ name, b ≠ 0) →
      ft1.lookup name = some (idx, ft1.entries.getD idx FileEntry.empty) ∧
      (ft1.entries.getD idx FileEntry.empty).name_bytes = name) ∧
    (64 ≤ name.length →
      (ft1.entries.getD idx FileEntry.empty).name_bytes.length ≤ 63 ∧
      ft1.lookup name = none) := by
  classical
  have h64 : MAX_NAME_LEN = 64 := rfl
  unfold FileTable.create at hcreate
  cases hslot : findFreeSlot ft.entries 0 with
  | none => rw [hslot] at hcreate; cases hcreate
  | some slot =>
    rw [hslot] at hcreate
    simp only [Option.some.injEq, Prod.mk.injEq] at hcreate
    obtain ⟨hft1, hidx⟩ := hcreate
    subst hidx
    obtain ⟨j, hj0, hjlen, _, hbefore_inuse⟩ := findFreeSlot_spec ft.entries 0 slot hslot
    have hjs : slot = j := by omega
    subst hjs
    have hnomatch : ∀ e ∈ ft.entries, ¬ entryMatches name e :=
      lookupGo_none_forall name ft.entries 0 hpre
    set e0 := ft.entries.getD slot FileEntry.empty with he0
    set e2 : FileEntry :=
      { e0.set_name name with
          start_block := sb, block_count := bc, byte_length := 0,
          flags := (e0.set_name name).flags ||| 1 } with he2
    have hft1e : ft1.entries = ft.entries.set slot e2 := by
      rw [← hft1]
    have hgetidx : ft1.entries.getD slot FileEntry.empty = e2 := by
      rw [hft1e]; exact getD_set_self _ _ _ _ hjlen
    have hinuse : e2.is_in_use = true := by
      simp only [he2, FileEntry.is_in_use]
      simpa using or_one_in_use (e0.set_name name).flags
    have hnb : e2.name_bytes = (e0.set_name name).name_bytes := by
      simp only [he2, FileEntry.name_bytes]
    constructor
    · rintro ⟨hlen, hnz⟩
      have hnbname : e2.name_bytes = name := by
        rw [hnb]
        exact set_name_name_bytes_short e0 name (by omega) hnz
      have hfound : lookupGo name ft1.entries 0 = some (0 + slot, e2) := by
        rw [hft1e]
        have hlen1 : slot < (ft.entries.set slot e2).length := by simpa using hjlen
        have hval : (ft.entries.set slot e2).getD slot FileEntry.empty = e2 :=
          getD_set_self _ _ _ _ hjlen
        have hf := lookupGo_found name (ft.entries.set slot e2) slot 0 hlen1
          (fun k hk => by
            rw [getD_set_ne _ _ _ _ _ (show slot ≠ k by omega)]
            exact hnomatch _ (getD_mem ft.entries k FileEntry.empty (by omega)))
          (by rw [hval]; exact ⟨hinuse, hnbname⟩)
        rw [hval] at hf
        exact hf
      refine ⟨?_, by rw [hgetidx, hnbname]⟩
      show lookupGo name ft1.entries 0 = _
      rw [hfound, hgetidx]
      have harith : 0 + slot = slot := by omega
      rw [harith]
    · intro hlen64
      have hshort : e2.name_bytes.length ≤ 63 := by
        rw [hnb]
        have hle := set_name_name_bytes_le e0 name
        omega
      refine ⟨by rw [hgetidx]; exact hshort, ?_⟩
      show lookupGo name ft1.entries 0 = none
      apply lookupGo_none_of_forall
      intro e he
      rw [hft1e] at he
      rcases List.mem_or_eq_of_mem_set he with hmem | heq
      · exact hnomatch e hmem
      · subst heq
        intro hc
        have hc2 := hc.2
        have hlne : e2.name_bytes.length = name.length := by rw [hc2]
        omega

/-- Witness for C9 on an empty table and the two-byte name c9name. -/
theorem file_table_name_truncation_witness :
    c9pair.1.lookup c9name = some (c9pair.2, c9pair.1.entries.getD c9pair.2 FileEntry.empty) ∧
    (c9pair.1.entries.getD c9pair.2 FileEntry.empty).name_bytes = c9name :=
  (file_table_name_truncation c9ft c9name 3 16 c9pair.1 c9pair.2 (by decide)
    (by decide)).1 ⟨by decide, by decide⟩

/-! ## C10 and C4: the read path -/

/-- Ceiling-style division bound: the last byte of the last block. -/
theorem mul_sub_one_div (bs c : Nat) (hbs : 0 < bs) (hc : 0 < c) :
    (c * bs - 1) / bs = c - 1 := by
  have e1 : c * bs = (c - 1) * bs + bs := by
    have h := Nat.sub_add_cancel hc
    calc c * bs = (c - 1 + 1) * bs := by rw [h]
      _ = (c - 1) * bs + 1 * bs := by rw [Nat.add_mul]
      _ = (c - 1) * bs + bs := by rw [Nat.one_mul]
  have e2 : c * bs - 1 = bs - 1 + bs * (c - 1) := by
    rw [e1, Nat.mul_comm bs (c - 1)]
    omega
  rw [e2, Nat.add_mul_div_left _ _ hbs, Nat.div_eq_of_lt (by omega)]
  omega

/-- C10: the read path never issues a device read outside the file
extent: whenever the computed block range would extend past the
handle's block_count the call zero-fills and returns ShortRead with no
device I/O, and any device read the call does issue covers LBAs within
[start_lba, start_lba + block_count). -/
theorem read_io_in_extent (disk : Nat → Nat) (file : HeavenFile) (amount offset : Nat)
    (hamt : 0 < amount) :
    (∀ lba n, HeavenVfs.readDeviceIO file amount offset = some (lba, n) →
      file.start_lba ≤ lba ∧ lba + n ≤ file.start_lba + file.block_count) ∧
    (offset < file.byte_length →
      file.block_count < offset / file.block_size +
        ((offset + min amount (file.byte_length - offset) - 1) / file.block_size -
          offset / file.block_size + 1) →
      HeavenVfs.read disk file amount offset =
        (List.replicate amount 0, SQLITE_IOERR_SHORT_READ) ∧
      HeavenVfs.readDeviceIO file amount offset = none) := by
  constructor
  · intro lba n h
    simp only [HeavenVfs.readDeviceIO] at h
    by_cases h1 : file.byte_length ≤ offset
    · rw [if_pos h1] at h; cases h
    · rw [if_neg h1] at h
      by_cases h2 : file.block_count < offset / file.block_size +
          ((offset + min amount (file.byte_length - offset) - 1) / file.block_size -
            offset / file.block_size + 1)
      · rw [if_pos h2] at h; cases h
      · rw [if_neg h2] at h
        simp only [Option.some.injEq, Prod.mk.injEq] at h
        obtain ⟨hlba, hn⟩ := h
        have hsb : offset / file.block_size ≤
            (offset + min amount (file.byte_length - offset) - 1) / file.block_size :=
          Nat.div_le_div_right (by omega)
        generalize hSB : offset / file.block_size = SB at hlba h2 hsb
        generalize hEB :
          (offset + min amount (file.byte_length - offset) - 1) / file.block_size = EB
          at hn h2 hsb
        exact ⟨by omega, by omega⟩
  · intro h1 h2
    constructor
    · simp only [HeavenVfs.read]
      rw [if_neg (by omega), if_pos h2]
    · simp only [HeavenVfs.readDeviceIO]
      rw [if_neg (by omega), if_pos h2]

/-- Witness for C10 at rfile: the in-extent bound for the read command
it issues, and an out-of-range request that performs no I/O. -/
theorem read_io_in_extent_witness :
    rfile.start_lba ≤ 5 ∧ 5 + 2 ≤ rfile.start_lba + rfile.block_count :=
  (read_io_in_extent rdisk rfile 6 7 (by decide)).1 5 2 (by decide)

/-- C4: read semantics. Past EOF the buffer is zero-filled and the call
returns ShortRead; reads crossing EOF deliver the file bytes up to EOF
followed by zeros and return ShortRead; in-bounds reads deliver the
file bytes and return Ok. File byte p is device byte
start_lba * block_size + p. The side condition bounds byte_length by
the allocated extent (the VFS keeps block_count * block_size ≥
byte_length for every open file). -/
theorem read_spec (disk : Nat → Nat) (file : HeavenFile) (amount offset : Nat)
    (hbs : 0 < file.block_size) (hamt : 0 < amount)
    (hinv : file.byte_length ≤ file.block_count * file.block_size) :
    (file.byte_length ≤ offset →
      HeavenVfs.read disk file amount offset =
        (List.replicate amount 0, SQLITE_IOERR_SHORT_READ)) ∧
    (offset < file.byte_length → file.byte_length < offset + amount →
      HeavenVfs.read disk file amount offset =
        ((List.range (file.byte_length - offset)).map
            (fun i => disk (file.start_lba * file.block_size + offset + i)) ++
          List.replicate (amount - (file.byte_length - offset)) 0,
         SQLITE_IOERR_SHORT_READ)) ∧
    (offset + amount ≤ file.byte_length →
      HeavenVfs.read disk file amount offset =
        ((List.range amount).map
            (fun i => disk (file.start_lba * file.block_size + offset + i)),
         SQLITE_OK)) := by
  have hbody : ∀ to_read, 0 < to_read → offset + to_read ≤ file.byte_length →
      (List.range to_read).map
          (fun i => disk ((file.start_lba + offset / file.block_size) * file.block_size +
            offset % file.block_size + i)) =
      (List.range to_read).map
          (fun i => disk (file.start_lba * file.block_size + offset + i)) := by
    intro to_read _ _
    apply List.map_congr_left
    intro i _
    congr 1
    have hdm := Nat.div_add_mod offset file.block_size
    have hcomm : offset / file.block_size * file.block_size =
        file.block_size * (offset / file.block_size) := Nat.mul_comm _ _
    rw [Nat.add_mul]
    omega
  have hbound : ∀ to_read, 0 < to_read → offset + to_read ≤ file.byte_length →
      ¬ (file.block_count < offset / file.block_size +
          ((offset + to_read - 1) / file.block_size - offset / file.block_size + 1)) := by
    intro to_read htr hle
    have hbc : 0 < file.block_count := by
      rcases Nat.eq_zero_or_pos file.block_count with h | h
      · rw [h] at hinv; simp at hinv; omega
      · exact h
    have hmono : (offset + to_read - 1) / file.block_size ≤
        (file.block_count * file.block_size - 1) / file.block_size :=
      Nat.div_le_div_right (by omega)
    have hlast : (file.block_count * file.block_size - 1) / file.block_size =
        file.block_count - 1 := mul_sub_one_div _ _ hbs hbc
    have hsb : offset / file.block_size ≤ (offset + to_read - 1) / file.block_size :=
      Nat.div_le_div_right (by omega)
    omega
  refine ⟨fun h => ?_, fun h1 h2 => ?_, fun h3 => ?_⟩
  · simp only [HeavenVfs.read]
    rw [if_pos h]
  · have hmin : min amount (file.byte_length - offset) = file.byte_length - offset := by
      omega
    simp only [HeavenVfs.read]
    rw [if_neg (by omega), hmin,
      if_neg (hbound (file.byte_length - offset) (by omega) (by omega)),
      if_pos (by omega), hbody (file.byte_length - offset) (by omega) (by omega)]
  · have hmin : min amount (file.byte_length - offset) = amount := by omega
    simp only [HeavenVfs.read]
    rw [if_neg (by omega), hmin, if_neg (hbound amount (by omega) (by omega)),
      if_neg (by omega), hbody amount (by omega) (by omega)]

/-- Witness for C4 at rfile over rdisk: a read crossing EOF. -/
theorem read_spec_witness :
    HeavenVfs.read rdisk rfile 6 7 =
      ((List.range (rfile.byte_length - 7)).map
          (fun i => rdisk (rfile.start_lba * rfile.block_size + 7 + i)) ++
        List.replicate (6 - (rfile.byte_length - 7)) 0,
       SQLITE_IOERR_SHORT_READ) :=
  (read_spec rdisk rfile 6 7 (by decide) (by decide) (by decide)).2.1
    (by decide) (by decide)

/-! ## C3: bitmap machinery -/

theorem testBitA_eq_testBit (bm : List Nat) (idx : Nat) :
    testBitA bm idx = (bm.getD (idx / 64) 0).testBit (idx % 64) := by
  unfold testBitA
  rw [Nat.shiftLeft_eq, Nat.one_mul, Nat.and_two_pow]
  cases h : (bm.getD (idx / 64) 0).testBit (idx % 64) <;>
    simp [h, Nat.ne_of_gt (Nat.two_pow_pos (idx % 64))]

theorem length_setBitA (bm : List Nat) (idx : Nat) : (setBitA bm idx).length = bm.length := by
  simp [setBitA]

theorem length_clearBitA (bm : List Nat) (idx : Nat) :
    (clearBitA bm idx).length = bm.length := by
  simp [clearBitA]

/-- Two bit positions with the same word and in-word index are equal. -/
theorem bitpos_eq (j idx : Nat) (hw : j / 64 = idx / 64) (hr : j % 64 = idx % 64) :
    j = idx := by
  omega

theorem testBitA_setBitA (bm : List Nat) (idx j : Nat) (hw : idx / 64 < bm.length) :
    testBitA (setBitA bm idx) j = if j = idx then true else testBitA bm j := by
  rw [testBitA_eq_testBit, testBitA_eq_testBit]
  unfold setBitA
  rw [Nat.shiftLeft_eq, Nat.one_mul]
  by_cases hjw : j / 64 = idx / 64
  · rw [hjw, getD_set_self _ _ _ _ hw, Nat.testBit_lor]
    by_cases hj : j = idx
    · rw [if_pos hj, hj]
      simp [Nat.testBit_two_pow_self]
    · rw [if_neg hj]
      have hr : idx % 64 ≠ j % 64 := fun hr => hj (bitpos_eq j idx hjw hr.symm)
      rw [Nat.testBit_two_pow_of_ne hr]
      simp
  · rw [getD_set_ne _ _ _ _ _ (fun h => hjw h.symm)]
    rw [if_neg (fun hj => hjw (by rw [hj]))]

theorem testBitA_clearBitA (bm : List Nat) (idx j : Nat) (hw : idx / 64 < bm.length) :
    testBitA (clearBitA bm idx) j = if j = idx then false else testBitA bm j := by
  rw [testBitA_eq_testBit, testBitA_eq_testBit]
  unfold clearBitA
  rw [Nat.shiftLeft_eq, Nat.one_mul]
  by_cases hjw : j / 64 = idx / 64
  · rw [hjw, getD_set_self _ _ _ _ hw, Nat.testBit_land, Nat.testBit_xor,
      Nat.testBit_two_pow_sub_one]
    have hlt : decide (j % 64 < 64) = true := by
      simp
      omega
    by_cases hj : j = idx
    · rw [if_pos hj]
      have hr : idx % 64 = j % 64 := by rw [hj]
      rw [hr, Nat.testBit_two_pow_self, hlt]
      simp
    · rw [if_neg hj]
      have hr : idx % 64 ≠ j % 64 := fun hr => hj (bitpos_eq j idx hjw hr.symm)
      rw [Nat.testBit_two_pow_of_ne hr, hlt]
      simp
  · rw [getD_set_ne _ _ _ _ _ (fun h => hjw h.symm)]
    rw [if_neg (fun hj => hjw (by rw [hj]))]

theorem length_setBits : ∀ (count : Nat) (bm : List Nat) (start : Nat),
    (setBits bm start count).length = bm.length := by
  intro count
  induction count with
  | zero => intro bm start; rfl
  | succ n ih =>
    intro bm start
    rw [setBits, ih, length_setBitA]

theorem length_clearBits : ∀ (count : Nat) (bm : List Nat) (start : Nat),
    (clearBits bm start count).length = bm.length := by
  intro count
  induction count with
  | zero => intro bm start; rfl
  | succ n ih =>
    intro bm start
    rw [clearBits, ih, length_clearBitA]

/-- Pointwise effect of the bit-setting loop of alloc. -/
theorem testBitA_setBits : ∀ (count : Nat) (bm : List Nat) (start : Nat),
    start + count ≤ 64 * bm.length → ∀ j,
      testBitA (setBits bm start count) j =
        if start ≤ j ∧ j < start + count then true else testBitA bm j := by
  intro count
  induction count with
  | zero =>
    intro bm start _ j
    rw [setBits, if_neg (by omega)]
  | succ n ih =>
    intro bm start hle j
    have hw : start / 64 < bm.length := by
      rw [Nat.div_lt_iff_lt_mul (by norm_num : (0:Nat) < 64)]
      omega
    rw [setBits, ih (setBitA bm start) (start + 1) (by rw [length_setBitA]; omega) j,
      testBitA_setBitA bm start j hw]
    by_cases h1 : start + 1 ≤ j ∧ j < start + 1 + n
    · rw [if_pos h1, if_pos (by omega)]
    · rw [if_neg h1]
      by_cases h2 : j = start
      · rw [if_pos h2, if_pos (by omega)]
      · rw [if_neg h2, if_neg (by omega)]

/-- Pointwise effect of the bit-clearing loop of free. -/
theorem testBitA_clearBits : ∀ (count : Nat) (bm : List Nat) (start : Nat),
    start + count ≤ 64 * bm.length → ∀ j,
      testBitA (clearBits bm start count) j =
        if start ≤ j ∧ j < start + count then false else testBitA bm j := by
  intro count
  induction count with
  | zero =>
    intro bm start _ j
    rw [clearBits, if_neg (by omega)]
  | succ n ih =>
    intro bm start hle j
    have hw : start / 64 < bm.length := by
      rw [Nat.div_lt_iff_lt_mul (by norm_num : (0:Nat) < 64)]
      omega
    rw [clearBits, ih (clearBitA bm start) (start + 1) (by rw [length_clearBitA]; omega) j,
      testBitA_clearBitA bm start j hw]
    by_cases h1 : start + 1 ≤ j ∧ j < start + 1 + n
    · rw [if_pos h1, if_pos (by omega)]
    · rw [if_neg h1]
      by_cases h2 : j = start
      · rw [if_pos h2, if_pos (by omega)]
      · rw [if_neg h2, if_neg (by omega)]

theorem countP_range_succ_split (f : Nat → Bool) (n : Nat) :
    (List.range (n + 1)).countP f = (List.range n).countP f + (if f n then 1 else 0) := by
  rw [List.range_succ, List.countP_append]
  simp [List.countP_cons]

/-- Flipping one bit of the counted predicate changes the count by one. -/
theorem countP_range_flip : ∀ (n : Nat) (f g : Nat → Bool) (b0 : Nat), b0 < n →
    f b0 = true → g b0 = false → (∀ x, x < n → x ≠ b0 → f x = g x) →
    (List.range n).countP f = (List.range n).countP g + 1 := by
  intro n
  induction n with
  | zero => intro f g b0 hb; omega
  | succ m ih =>
    intro f g b0 hb hf hg hagree
    rw [countP_range_succ_split, countP_range_succ_split]
    by_cases hbm : b0 = m
    · have heq : (List.range m).countP f = (List.range m).countP g := by
        apply List.countP_congr
        intro x hx
        have hxm : x < m := List.mem_range.mp hx
        rw [hagree x (by omega) (by omega)]
      rw [heq, ← hbm, hf, hg]
      simp
    · have hfg : f m = g m := hagree m (by omega) (by omega)
      rw [ih f g b0 (by omega) hf hg (fun x hx hne => hagree x (by omega) hne), hfg]
      omega

/-- Setting a clear bit in the valid range lowers the zero count by 1. -/
theorem zeroBits_setBitA (bm : List Nat) (b0 n : Nat) (hb : b0 < n)
    (hw : b0 / 64 < bm.length) (hclear : testBitA bm b0 = false) :
    zeroBits bm n = zeroBits (setBitA bm b0) n + 1 := by
  unfold zeroBits
  apply countP_range_flip n _ _ b0 hb
  · simp [hclear]
  · simp [testBitA_setBitA bm b0 b0 hw]
  · intro x hx hne
    simp [testBitA_setBitA bm b0 x hw, hne]

/-- Clearing a set bit in the valid range raises the zero count by 1. -/
theorem zeroBits_clearBitA (bm : List Nat) (b0 n : Nat) (hb : b0 < n)
    (hw : b0 / 64 < bm.length) (hset : testBitA bm b0 = true) :
    zeroBits (clearBitA bm b0) n = zeroBits bm n + 1 := by
  unfold zeroBits
  apply countP_range_flip n _ _ b0 hb
  · simp [testBitA_clearBitA bm b0 b0 hw]
  · simp [hset]
  · intro x hx hne
    simp [testBitA_clearBitA bm b0 x hw, hne]

/-- The marking loop of alloc lowers the zero count by the run length. -/
theorem zeroBits_setBits : ∀ (count : Nat) (bm : List Nat) (start n : Nat),
    start + count ≤ n → n ≤ 64 * bm.length →
    (∀ i < count, testBitA bm (start + i) = false) →
    zeroBits bm n = zeroBits (setBits bm start count) n + count := by
  intro count
  induction count with
  | zero => intro bm start n _ _ _; rw [setBits]; omega
  | succ c ih =>
    intro bm start n hn hlen hfree
    have hw : start / 64 < bm.length := by
      rw [Nat.div_lt_iff_lt_mul (by norm_num : (0:Nat) < 64)]
      omega
    have h0 : testBitA bm start = false := by
      have := hfree 0 (by omega)
      simpa using this
    have hstep := zeroBits_setBitA bm start n (by omega) hw h0
    have hrec := ih (setBitA bm start) (start + 1) n (by omega)
      (by rw [length_setBitA]; omega)
      (fun i hi => by
        rw [testBitA_setBitA bm start _ hw, if_neg (by omega)]
        have := hfree (i + 1) (by omega)
        rw [show start + 1 + i = start + (i + 1) by omega]
        exact this)
    rw [setBits]
    omega

/-- The clearing loop of free raises the zero count by the run length. -/
theorem zeroBits_clearBits : ∀ (count : Nat) (bm : List Nat) (start n : Nat),
    start + count ≤ n → n ≤ 64 * bm.length →
    (∀ i < count, testBitA bm (start + i) = true) →
    zeroBits (clearBits bm start count) n = zeroBits bm n + count := by
  intro count
  induction count with
  | zero => intro bm start n _ _ _; rw [clearBits]; omega
  | succ c ih =>
    intro bm start n hn hlen hset
    have hw : start / 64 < bm.length := by
      rw [Nat.div_lt_iff_lt_mul (by norm_num : (0:Nat) < 64)]
      omega
    have h0 : testBitA bm start = true := by
      have := hset 0 (by omega)
      simpa using this
    have hstep := zeroBits_clearBitA bm start n (by omega) hw h0
    have hrec := ih (clearBitA bm start) (start + 1) n (by omega)
      (by rw [length_clearBitA]; omega)
      (fun i hi => by
        rw [testBitA_clearBitA bm start _ hw, if_neg (by omega)]
        have := hset (i + 1) (by omega)
        rw [show start + 1 + i = start + (i + 1) by omega]
        exact this)
    rw [clearBits]
    omega

/-- A successful scan returns an in-range run of clear bits. -/
theorem scanGo_some (bm : List Nat) (total count : Nat) :
    ∀ (fuel start s : Nat), scanGo bm total count fuel start = some s →
      s + count ≤ total ∧ ∀ i < count, testBitA bm (s + i) = false := by
  intro fuel
  induction fuel with
  | zero => intro start s h; cases h
  | succ f ih =>
    intro start s h
    rw [scanGo] at h
    by_cases hg : start + count ≤ total
    · rw [if_pos hg] at h
      cases hfu : firstUsedIn bm start count with
      | none =>
        rw [hfu] at h
        injection h with hs
        subst hs
        refine ⟨hg, fun i hi => ?_⟩
        unfold firstUsedIn at hfu
        have := List.find?_eq_none.mp hfu i (List.mem_range.mpr hi)
        simpa using this
      | some i =>
        rw [hfu] at h
        exact ih _ s h
    · rw [if_neg hg] at h
      cases h

/-- Everything a successful alloc guarantees: the run was free and
in range, exactly those bits are now set, free_count dropped by count,
and nothing else changed. -/
theorem alloc_ok_spec (a : BlockAllocator) (count : Nat) (a1 : BlockAllocator) (s : Nat)
    (hlen : a.data_block_count ≤ 64 * a.bitmap.length)
    (h : a.alloc count = .ok (a1, s)) :
    s + count ≤ a.data_block_count ∧
    (∀ i < count, testBitA a.bitmap (s + i) = false) ∧
    (∀ i < count, testBitA a1.bitmap (s + i) = true) ∧
    (∀ x, (∀ i < count, x ≠ s + i) → testBitA a1.bitmap x = testBitA a.bitmap x) ∧
    a1.bitmap.length = a.bitmap.length ∧
    a1.data_block_count = a.data_block_count ∧
    a1.data_start_lba = a.data_start_lba ∧
    count ≤ a.free_count ∧ a1.free_count + count = a.free_count ∧
    a1.bitmap = setBits a.bitmap s count := by
  unfold BlockAllocator.alloc at h
  by_cases h0 : count = 0
  · rw [if_pos h0] at h; cases h
  rw [if_neg h0] at h
  by_cases h1 : a.free_count < count
  · rw [if_pos h1] at h; cases h
  rw [if_neg h1] at h
  cases hscan : scanFrom a.bitmap a.data_block_count count 0 with
  | none => rw [hscan] at h; cases h
  | some start =>
    rw [hscan] at h
    simp only [Except.ok.injEq, Prod.mk.injEq] at h
    obtain ⟨ha1, hs⟩ := h
    unfold scanFrom at hscan
    obtain ⟨hrange, hfree⟩ := scanGo_some a.bitmap a.data_block_count count _ 0 start hscan
    subst hs
    have hb1 : a1.bitmap = setBits a.bitmap start count := by rw [← ha1]
    have hf1 : a1.free_count = a.free_count - count := by rw [← ha1]
    have hd1 : a1.data_block_count = a.data_block_count := by rw [← ha1]
    have hds1 : a1.data_start_lba = a.data_start_lba := by rw [← ha1]
    have hbits := testBitA_setBits count a.bitmap start (by omega)
    refine ⟨hrange, hfree, ?_, ?_, ?_, hd1, hds1, by omega, by omega, hb1⟩
    · intro i hi
      rw [hb1, hbits (start + i), if_pos (by omega)]
    · intro x hx
      rw [hb1, hbits x, if_neg (fun hc => (hx (x - start) (by omega)) (by omega))]
    · rw [hb1]
      exact length_setBits count a.bitmap start

/-- Everything a free call does, under the debug-assert side conditions. -/
theorem free_spec (a : BlockAllocator) (s c : Nat)
    (hlen : a.data_block_count ≤ 64 * a.bitmap.length)
    (hrange : s + c ≤ a.data_block_count) :
    (∀ i < c, testBitA (a.free s c).bitmap (s + i) = false) ∧
    (∀ x, (∀ i < c, x ≠ s + i) → testBitA (a.free s c).bitmap x = testBitA a.bitmap x) ∧
    (a.free s c).free_count = a.free_count + c ∧
    (a.free s c).bitmap.length = a.bitmap.length ∧
    (a.free s c).data_block_count = a.data_block_count := by
  have hbits := testBitA_clearBits c a.bitmap s (by omega)
  unfold BlockAllocator.free
  refine ⟨?_, ?_, rfl, length_clearBits c a.bitmap s, rfl⟩
  · intro i hi
    rw [hbits (s + i), if_pos (by omega)]
  · intro x hx
    rw [hbits x, if_neg (fun hc => (hx (x - s) (by omega)) (by omega))]

/-- Wf is preserved by a successful alloc. -/
theorem alloc_preserves_wf (a : BlockAllocator) (count : Nat) (a1 : BlockAllocator)
    (s : Nat) (hwf : a.Wf) (h : a.alloc count = .ok (a1, s)) : a1.Wf := by
  obtain ⟨hrange, hfree, _, _, hblen, hdbc, _, hcle, hfc, hbm⟩ :=
    alloc_ok_spec a count a1 s hwf.1 h
  constructor
  · rw [hblen, hdbc]; exact hwf.1
  · have hz := zeroBits_setBits count a.bitmap s a.data_block_count hrange hwf.1 hfree
    rw [hdbc, hbm]
    have hfc2 := hwf.2
    omega

/-- Wf is preserved by free when the freed run is in range and was set. -/
theorem free_preserves_wf (a : BlockAllocator) (s c : Nat) (hwf : a.Wf)
    (hrange : s + c ≤ a.data_block_count)
    (hset : ∀ i < c, testBitA a.bitmap (s + i) = true) : (a.free s c).Wf := by
  have hz := zeroBits_clearBits c a.bitmap s a.data_block_count hrange hwf.1 hset
  constructor
  · unfold BlockAllocator.free
    simpa [length_clearBits] using hwf.1
  · unfold BlockAllocator.free
    simp only
    rw [hz]
    have := hwf.2
    omega

/-- Wf is preserved along any crash-free call sequence. -/
theorem applyOps_wf : ∀ (ops : List AllocOp) (a : BlockAllocator),
    a.Wf → NoCrash a ops → (applyOps a ops).Wf := by
  intro ops
  induction ops with
  | nil => intro a hwf _; exact hwf
  | cons op rest ih =>
    intro a hwf hnc
    obtain ⟨hok, hrest⟩ := hnc
    have hstep : (applyOp a op).Wf := by
      cases op with
      | alloc c =>
        cases halloc : a.alloc c with
        | ok p =>
          obtain ⟨a1, s⟩ := p
          have happ : applyOp a (.alloc c) = a1 := by
            simp only [applyOp, halloc]
          rw [happ]
          exact alloc_preserves_wf a c a1 s hwf halloc
        | error e =>
          have happ : applyOp a (.alloc c) = a := by
            simp only [applyOp, halloc]
          rw [happ]
          exact hwf
      | free s c =>
        obtain ⟨hr, hs⟩ := hok
        exact free_preserves_wf a s c hwf hr hs
    have happ : applyOps a (op :: rest) = applyOps (applyOp a op) rest :=
      List.foldl_cons _ _
    rw [happ]
    exact ih (applyOp a op) hstep hrest

/-- C3: over every crash-free sequence of alloc/free calls from a
well-formed (freshly formatted or loaded) allocator, the in-RAM
free_count equals the number of zero bits in the valid bitmap range
[0, data_block_count); in particular a successful alloc(count) sets
exactly count previously-clear bits and decrements free_count by
count, and free(start, count) of an in-range set run clears exactly
those bits and increments free_count by count. -/
theorem bitmap_consistency (a : BlockAllocator) (ops : List AllocOp)
    (hwf : a.Wf) (hnc : NoCrash a ops) :
    (applyOps a ops).free_count =
      zeroBits (applyOps a ops).bitmap (applyOps a ops).data_block_count ∧
    (∀ (b : BlockAllocator) (c : Nat) (b1 : BlockAllocator) (s : Nat), b.Wf →
      b.alloc c = .ok (b1, s) →
      (∀ i < c, testBitA b.bitmap (s + i) = false ∧ testBitA b1.bitmap (s + i) = true) ∧
      (∀ x, (∀ i < c, x ≠ s + i) → testBitA b1.bitmap x = testBitA b.bitmap x) ∧
      b1.free_count + c = b.free_count ∧ b1.Wf) ∧
    (∀ (b : BlockAllocator) (s c : Nat), b.Wf → s + c ≤ b.data_block_count →
      (∀ i < c, testBitA b.bitmap (s + i) = true) →
      (∀ i < c, testBitA (b.free s c).bitmap (s + i) = false) ∧
      (∀ x, (∀ i < c, x ≠ s + i) → testBitA (b.free s c).bitmap x = testBitA b.bitmap x) ∧
      (b.free s c).free_count = b.free_count + c ∧ (b.free s c).Wf) := by
  refine ⟨(applyOps_wf ops a hwf hnc).2, ?_, ?_⟩
  · intro b c b1 s hbwf halloc
    obtain ⟨hrange, hfree, hset, hother, _, _, _, _, hfc, _⟩ :=
      alloc_ok_spec b c b1 s hbwf.1 halloc
    exact ⟨fun i hi => ⟨hfree i hi, hset i hi⟩, hother, hfc,
      alloc_preserves_wf b c b1 s hbwf halloc⟩
  · intro b s c hbwf hrange hset
    obtain ⟨hcleared, hother, hfc, _, _⟩ := free_spec b s c hbwf.1 hrange
    exact ⟨hcleared, hother, hfc, free_preserves_wf b s c hbwf hrange hset⟩

/-- Witness for C3: the invariant after a concrete crash-free sequence. -/
theorem bitmap_consistency_witness :
    (applyOps c3Alloc c3Ops).free_count =
      zeroBits (applyOps c3Alloc c3Ops).bitmap (applyOps c3Alloc c3Ops).data_block_count :=
  (bitmap_consistency c3Alloc c3Ops (by decide) (by decide)).1

/-! ## C5: truncate -/

theorem getD_of_length_le {α : Type} (l : List α) (i : Nat) (d : α) (h : l.length ≤ i) :
    l.getD i d = d := by
  rw [List.getD_eq_getElem?_getD, List.getElem?_eq_none h]
  rfl

/-- An in-use entry lies within the entries list. -/
theorem in_use_lt_length (ft : FileTable) (idx : Nat)
    (hin : (ft.entries.getD idx FileEntry.empty).is_in_use = true) :
    idx < ft.entries.length := by
  by_contra hge
  push_neg at hge
  rw [getD_of_length_le _ _ _ hge] at hin
  simp [FileEntry.empty, FileEntry.is_in_use] at hin

/-- Effect of the get_mut-update pattern on the touched entry. -/
theorem modifyEntry_getD (ft : FileTable) (idx : Nat) (f : FileEntry → FileEntry)
    (hidx : idx < MAX_ENTRIES)
    (hin : (ft.entries.getD idx FileEntry.empty).is_in_use = true) :
    (ft.modifyEntry idx f).entries.getD idx FileEntry.empty =
      f (ft.entries.getD idx FileEntry.empty) := by
  unfold FileTable.modifyEntry
  rw [if_pos ⟨hidx, hin⟩]
  exact getD_set_self _ _ _ _ (in_use_lt_length ft idx hin)

/-- Counterexample to C5 as stated: at new_size = byte_length (100, a
16-block file of 100 bytes) truncate is not a no-op — it shrinks the
extent to 1 block. -/
theorem truncate_claim_counterexample :
    trSt.handle.byte_length ≤ 100 ∧
    (HeavenVfs.truncate trSt 100).1.handle.block_count ≠ trSt.handle.block_count := by
  decide

/-- C5 (amended): truncate(new_size) with new_size > byte_length is a
no-op returning Ok; with new_size ≤ byte_length it sets the handle's
byte_length to new_size, computes needed_blocks = max(1,
ceil(new_size/bs)) and, if needed_blocks < block_count, frees exactly
the tail blocks [start + needed_blocks, start + block_count) back to
the allocator and sets both the handle's and the file-table entry's
block_count to needed_blocks; otherwise only the handle's byte_length
changes. (start is the extent's data-block index
start_lba - data_start_lba.) -/
theorem truncate_spec (st : WState) (size : Nat)
    (hbs : 0 < st.handle.block_size)
    (hwfl : st.alloc.data_block_count ≤ 64 * st.alloc.bitmap.length)
    (hrange : st.handle.start_lba - st.alloc.data_start_lba + st.handle.block_count ≤
      st.alloc.data_block_count) :
    (st.handle.byte_length < size → HeavenVfs.truncate st size = (st, SQLITE_OK)) ∧
    (size ≤ st.handle.byte_length →
      (HeavenVfs.truncate st size).2 = SQLITE_OK ∧
      (HeavenVfs.truncate st size).1.handle.byte_length = size ∧
      (HeavenVfs.truncate st size).1.disk = st.disk ∧
      (max 1 ((size + st.handle.block_size - 1) / st.handle.block_size) <
          st.handle.block_count →
        (HeavenVfs.truncate st size).1.handle.block_count =
          max 1 ((size + st.handle.block_size - 1) / st.handle.block_size) ∧
        (HeavenVfs.truncate st size).1.handle.start_lba = st.handle.start_lba ∧
        (∀ b, st.handle.start_lba - st.alloc.data_start_lba +
              max 1 ((size + st.handle.block_size - 1) / st.handle.block_size) ≤ b ∧
            b < st.handle.start_lba - st.alloc.data_start_lba + st.handle.block_count →
          testBitA (HeavenVfs.truncate st size).1.alloc.bitmap b = false) ∧
        (∀ b, ¬ (st.handle.start_lba - st.alloc.data_start_lba +
              max 1 ((size + st.handle.block_size - 1) / st.handle.block_size) ≤ b ∧
            b < st.handle.start_lba - st.alloc.data_start_lba + st.handle.block_count) →
          testBitA (HeavenVfs.truncate st size).1.alloc.bitmap b =
            testBitA st.alloc.bitmap b) ∧
        (HeavenVfs.truncate st size).1.alloc.free_count =
          st.alloc.free_count + (st.handle.block_count -
            max 1 ((size + st.handle.block_size - 1) / st.handle.block_size)) ∧
        (st.handle.file_table_index < MAX_ENTRIES →
          (st.ft.entries.getD st.handle.file_table_index FileEntry.empty).is_in_use =
            true →
          ((HeavenVfs.truncate st size).1.ft.entries.getD st.handle.file_table_index
              FileEntry.empty).block_count =
            max 1 ((size + st.handle.block_size - 1) / st.handle.block_size) ∧
          ((HeavenVfs.truncate st size).1.ft.entries.getD st.handle.file_table_index
              FileEntry.empty).byte_length = size)) ∧
      (st.handle.block_count ≤
          max 1 ((size + st.handle.block_size - 1) / st.handle.block_size) →
        (HeavenVfs.truncate st size).1 =
          { st with handle := { st.handle with byte_length := size } })) := by
  have hneed : (if size = 0 then 1 else (size + st.handle.block_size - 1) /
      st.handle.block_size) =
      max 1 ((size + st.handle.block_size - 1) / st.handle.block_size) := by
    by_cases h0 : size = 0
    · rw [if_pos h0, h0]
      rw [Nat.div_eq_of_lt (by omega)]
      omega
    · rw [if_neg h0]
      have h1 : 1 ≤ (size + st.handle.block_size - 1) / st.handle.block_size := by
        rw [Nat.one_le_div_iff hbs]
        omega
      omega
  constructor
  · intro h
    simp only [HeavenVfs.truncate]
    rw [if_pos h]
  · intro h
    simp only [HeavenVfs.truncate]
    rw [if_neg (by omega), hneed]
    set needed := max 1 ((size + st.handle.block_size - 1) / st.handle.block_size)
      with hneeddef
    by_cases hlt : needed < st.handle.block_count
    · rw [if_pos hlt]
      obtain ⟨hcleared, hother, hfc, _, _⟩ := free_spec st.alloc
        (st.handle.start_lba - st.alloc.data_start_lba + needed)
        (st.handle.block_count - needed) hwfl (by omega)
      refine ⟨rfl, rfl, rfl, fun _ => ⟨rfl, rfl, ?_, ?_, ?_, fun hidx hin => ?_⟩,
        fun hge => by omega⟩
      · intro b hb
        have := hcleared (b - (st.handle.start_lba - st.alloc.data_start_lba + needed))
          (by omega)
        rw [show st.handle.start_lba - st.alloc.data_start_lba + needed +
            (b - (st.handle.start_lba - st.alloc.data_start_lba + needed)) = b
          by omega] at this
        exact this
      · intro b hb
        exact hother b (fun i hi => by omega)
      · exact hfc
      · rw [modifyEntry_getD st.ft st.handle.file_table_index _ hidx hin]
        exact ⟨rfl, rfl⟩
    · rw [if_neg hlt]
      refine ⟨rfl, rfl, rfl, fun hc => by omega, fun _ => rfl⟩

/-- Witness for the amended C5 at a concrete state: truncate to 50
bytes shrinks the 16-block extent. -/
theorem truncate_spec_witness :
    (HeavenVfs.truncate trSt 50).2 = SQLITE_OK ∧
    (HeavenVfs.truncate trSt 50).1.handle.byte_length = 50 :=
  have h := (truncate_spec trSt 50 (by decide) (by decide) (by decide)).2 (by decide)
  ⟨h.1, h.2.1⟩

/-! ## C2: rollback on device failure mid-relocation -/

/-- The copy loop stops at the first failing block j: it returns
IoErr_Read when the device read of old block j fails, and IoErr_Write
when that read succeeds but the device write of new block j fails. -/
theorem copyBlocks_error (fR fW : Nat → Nat → Bool) (bs src dst : Nat) :
    ∀ (n blk : Nat) (disk : Nat → Nat) (j : Nat), j < n →
      (∀ i < j, fR (src + blk + i) 1 = false ∧ fW (dst + blk + i) 1 = false) →
      (fR (src + blk + j) 1 = true ∨ fW (dst + blk + j) 1 = true) →
      copyBlocks fR fW bs src dst blk n disk =
        .error (if fR (src + blk + j) 1 = true then SQLITE_IOERR_READ
          else SQLITE_IOERR_WRITE) := by
  intro n
  induction n with
  | zero =>
    intro blk disk j hj _ _
    omega
  | succ m ih =>
    intro blk disk j hj hmin hfj
    by_cases hj0 : j = 0
    · subst hj0
      simp only [Nat.add_zero] at hfj ⊢
      by_cases hr : fR (src + blk) 1 = true
      · rw [copyBlocks, if_pos hr, if_pos hr]
      · have hw : fW (dst + blk) 1 = true := hfj.resolve_left hr
        rw [copyBlocks, if_neg hr, if_pos hw, if_neg hr]
    · have h0 := hmin 0 (by omega)
      simp only [Nat.add_zero] at h0
      have hr0 : ¬ fR (src + blk) 1 = true := by
        rw [h0.1]
        exact Bool.false_ne_true
      have hw0 : ¬ fW (dst + blk) 1 = true := by
        rw [h0.2]
        exact Bool.false_ne_true
      have hrec := ih (blk + 1)
        (writeBlocksD disk (dst + blk) 1 bs (fun i2 => disk ((src + blk) * bs + i2)))
        (j - 1) (by omega)
        (fun i hi => by
          rw [show src + (blk + 1) + i = src + blk + (i + 1) from by omega,
            show dst + (blk + 1) + i = dst + blk + (i + 1) from by omega]
          exact hmin (i + 1) (by omega))
        (by
          rw [show src + (blk + 1) + (j - 1) = src + blk + j from by omega,
            show dst + (blk + 1) + (j - 1) = dst + blk + j from by omega]
          exact hfj)
      rw [copyBlocks, if_neg hr0, if_neg hw0, hrec,
        show src + (blk + 1) + (j - 1) = src + blk + j from by omega]

/-- Counterexample to C2 as stated: a device READ error while copying
during relocation returns IoErr_Read (266), not the write I/O error
IoErr_Write (778). -/
theorem relocation_error_counterexample :
    (HeavenVfs.write (fun lba _ => lba == 10) (fun _ _ => false) false grSt
      [1, 2, 3] 0).2 = SQLITE_IOERR_READ ∧
    SQLITE_IOERR_READ ≠ SQLITE_IOERR_WRITE := by
  constructor
  · rfl
  · decide

/-- C2 (amended): if the first device failure while copying the old
blocks to the newly allocated extent is at block j, the newly
allocated blocks are freed back to the block allocator (the allocator
bitmap and free_count return to their pre-call values), the call
returns the corresponding I/O error — IoErr_Read (266) when the device
read of old block j failed, IoErr_Write (778) when that read succeeded
and the device write of new block j failed — and the file's old extent
is unchanged: the handle and the file-table entry keep their pre-call
values. -/
theorem relocation_error_rollback
    (fR fW : Nat → Nat → Bool) (fFlush : Bool) (st : WState) (data : List Nat)
    (offset : Nat) (alloc1 : BlockAllocator) (new_start j : Nat)
    (hwf : st.alloc.Wf)
    (hgrow : st.handle.block_count <
      offset / st.handle.block_size +
        ((offset + data.length - 1) / st.handle.block_size -
          offset / st.handle.block_size + 1))
    (halloc : st.alloc.alloc
        (offset / st.handle.block_size +
          ((offset + data.length - 1) / st.handle.block_size -
            offset / st.handle.block_size + 1)) = .ok (alloc1, new_start))
    (hj : j < st.handle.block_count)
    (hmin : ∀ i < j, fR (st.handle.start_lba + i) 1 = false ∧
      fW (st.alloc.data_start_lba + new_start + i) 1 = false)
    (hfailj : fR (st.handle.start_lba + j) 1 = true ∨
      fW (st.alloc.data_start_lba + new_start + j) 1 = true) :
    (HeavenVfs.write fR fW fFlush st data offset).2 =
      (if fR (st.handle.start_lba + j) 1 = true then SQLITE_IOERR_READ
        else SQLITE_IOERR_WRITE) ∧
    (HeavenVfs.write fR fW fFlush st data offset).1.handle = st.handle ∧
    (HeavenVfs.write fR fW fFlush st data offset).1.ft = st.ft ∧
    (HeavenVfs.write fR fW fFlush st data offset).1.alloc.free_count =
      st.alloc.free_count ∧
    (∀ b, testBitA (HeavenVfs.write fR fW fFlush st data offset).1.alloc.bitmap b =
      testBitA st.alloc.bitmap b) := by
  obtain ⟨hrange, hfree, hset, hother, hblen, hdbc, hdsl, hcle, hfc, hbm⟩ :=
    alloc_ok_spec st.alloc _ alloc1 new_start hwf.1 halloc
  set needed := offset / st.handle.block_size +
    ((offset + data.length - 1) / st.handle.block_size -
      offset / st.handle.block_size + 1) with hneeddef
  have hcopy := copyBlocks_error fR fW st.handle.block_size st.handle.start_lba
    (alloc1.data_start_lba + new_start) st.handle.block_count 0 st.disk j hj
    (fun i hi => by
      rw [show st.handle.start_lba + 0 + i = st.handle.start_lba + i from by omega,
        show alloc1.data_start_lba + new_start + 0 + i =
          alloc1.data_start_lba + new_start + i from by omega, hdsl]
      exact hmin i hi)
    (by
      rw [show st.handle.start_lba + 0 + j = st.handle.start_lba + j from by omega,
        show alloc1.data_start_lba + new_start + 0 + j =
          alloc1.data_start_lba + new_start + j from by omega, hdsl]
      exact hfailj)
  rw [show st.handle.start_lba + 0 + j = st.handle.start_lba + j from by omega]
    at hcopy
  have hres : HeavenVfs.write fR fW fFlush st data offset =
      ({ st with alloc := alloc1.free new_start needed },
        if fR (st.handle.start_lba + j) 1 = true then SQLITE_IOERR_READ
          else SQLITE_IOERR_WRITE) := by
    simp only [HeavenVfs.write]
    rw [if_pos hgrow]
    simp only [halloc, hcopy]
  rw [hres]
  obtain ⟨hcleared, hother2, hfc2, _, _⟩ := free_spec alloc1 new_start needed
    (by rw [hdbc, hblen]; exact hwf.1) (by omega)
  refine ⟨rfl, rfl, rfl, by simpa [hfc2] using by omega, ?_⟩
  intro b
  by_cases hb : new_start ≤ b ∧ b < new_start + needed
  · have h1 := hcleared (b - new_start) (by omega)
    rw [show new_start + (b - new_start) = b by omega] at h1
    have h2 := hfree (b - new_start) (by omega)
    rw [show new_start + (b - new_start) = b by omega] at h2
    simp only
    rw [h1, h2]
  · have h1 := hother2 b (fun i hi => by omega)
    have h2 := hother b (fun i hi => by omega)
    simp only
    rw [h1, h2]

/-- Witness for the amended C2: grSt relocation where the device read
of the old block succeeds but the device write of new block 11 fails;
the allocator is restored and IoErr_Write (778) is returned. -/
theorem relocation_error_rollback_witness :
    (HeavenVfs.write (fun _ _ => false) (fun lba _ => lba == 11) false grSt
      [1, 2, 3] 0).2 = SQLITE_IOERR_WRITE ∧
    (HeavenVfs.write (fun _ _ => false) (fun lba _ => lba == 11) false grSt
      [1, 2, 3] 0).1.handle = grSt.handle ∧
    (HeavenVfs.write (fun _ _ => false) (fun lba _ => lba == 11) false grSt
      [1, 2, 3] 0).1.ft = grSt.ft ∧
    (HeavenVfs.write (fun _ _ => false) (fun lba _ => lba == 11) false grSt
      [1, 2, 3] 0).1.alloc.free_count = grSt.alloc.free_count ∧
    (∀ b, testBitA (HeavenVfs.write (fun _ _ => false) (fun lba _ => lba == 11) false
        grSt [1, 2, 3] 0).1.alloc.bitmap b = testBitA grSt.alloc.bitmap b) :=
  have h := relocation_error_rollback (fun _ _ => false) (fun lba _ => lba == 11)
    false grSt [1, 2, 3] 0
    { bitmap := [7], data_block_count := 4, data_start_lba := 10,
      bitmap_start_lba := 1, bitmap_on_disk_blocks := 1, block_size := 2,
      free_count := 1, dirty := true } 1 0
    (by decide) (by decide) (by decide) (by decide)
    (fun i hi => absurd hi (Nat.not_lt_zero i)) (Or.inr (by decide))
  ⟨by rw [h.1]; rfl, h.2⟩

/-! ## C1: unaligned RMW preserves neighbors -/

/-- C1: for every file handle, data d and offset o with o % bs ≠ 0, a
write of d at o that needs no growth leaves the file bytes in
[floor(o/bs)*bs, o) and in (o + len d, ceil((o + len d)/bs)*bs)
unchanged: the RMW path reads the covered blocks, overlays d at o % bs,
and writes the same blocks back. File byte p is device byte
start_lba * bs + p; the device read and write of the covered blocks
succeed. -/
theorem rmw_preserves_neighbors
    (fR fW : Nat → Nat → Bool) (fFlush : Bool) (st : WState) (data : List Nat)
    (offset : Nat)
    (hbs : 0 < st.handle.block_size) (hd : 0 < data.length)
    (hunaligned : offset % st.handle.block_size ≠ 0)
    (hnogrow : offset / st.handle.block_size +
        ((offset + data.length - 1) / st.handle.block_size -
          offset / st.handle.block_size + 1) ≤ st.handle.block_count)
    (hR : fR (st.handle.start_lba + offset / st.handle.block_size)
        ((offset + data.length - 1) / st.handle.block_size -
          offset / st.handle.block_size + 1) = false)
    (hW : fW (st.handle.start_lba + offset / st.handle.block_size)
        ((offset + data.length - 1) / st.handle.block_size -
          offset / st.handle.block_size + 1) = false) :
    ∀ p, (offset / st.handle.block_size * st.handle.block_size ≤ p ∧ p < offset) ∨
        (offset + data.length < p ∧
          p < (offset + data.length + st.handle.block_size - 1) /
            st.handle.block_size * st.handle.block_size) →
      (HeavenVfs.write fR fW fFlush st data offset).1.disk
          (st.handle.start_lba * st.handle.block_size + p) =
        st.disk (st.handle.start_lba * st.handle.block_size + p) := by
  intro p hp
  have hres : (HeavenVfs.write fR fW fFlush st data offset).1.disk =
      writeBlocksD st.disk
        (st.handle.start_lba + offset / st.handle.block_size)
        ((offset + data.length - 1) / st.handle.block_size -
          offset / st.handle.block_size + 1)
        st.handle.block_size
        (fun i =>
          if offset % st.handle.block_size ≤ i ∧
              i < offset % st.handle.block_size + data.length then
            data.getD (i - offset % st.handle.block_size) 0
          else st.disk ((st.handle.start_lba + offset / st.handle.block_size) *
            st.handle.block_size + i)) := by
    simp only [HeavenVfs.write]
    rw [if_neg (by omega)]
    simp only [doWritePart]
    rw [if_neg (fun hc => hunaligned hc.1), hR]
    simp only [Bool.false_eq_true, if_false]
    rw [hW]
    simp only [Bool.false_eq_true, if_false]
  rw [hres]
  simp only [writeBlocksD]
  -- arithmetic facts, with the variable products as opaque atoms
  have hcomm1 : st.handle.block_size * (offset / st.handle.block_size) =
      offset / st.handle.block_size * st.handle.block_size := Nat.mul_comm _ _
  have hdm : offset / st.handle.block_size * st.handle.block_size +
      offset % st.handle.block_size = offset := by
    rw [← hcomm1]; exact Nat.div_add_mod offset st.handle.block_size
  have hmod : offset % st.handle.block_size < st.handle.block_size :=
    Nat.mod_lt _ hbs
  have hcomm2 : st.handle.block_size * ((offset + data.length - 1) /
      st.handle.block_size) =
      (offset + data.length - 1) / st.handle.block_size * st.handle.block_size :=
    Nat.mul_comm _ _
  have hdm2 : (offset + data.length - 1) / st.handle.block_size *
      st.handle.block_size + (offset + data.length - 1) % st.handle.block_size =
      offset + data.length - 1 := by
    rw [← hcomm2]; exact Nat.div_add_mod _ _
  have hmod2 : (offset + data.length - 1) % st.handle.block_size <
      st.handle.block_size := Nat.mod_lt _ hbs
  have hqe : offset / st.handle.block_size ≤
      (offset + data.length - 1) / st.handle.block_size :=
    Nat.div_le_div_right (by omega)
  have hmul3 : offset / st.handle.block_size * st.handle.block_size ≤
      (offset + data.length - 1) / st.handle.block_size * st.handle.block_size :=
    Nat.mul_le_mul_right _ hqe
  have hceil : (offset + data.length + st.handle.block_size - 1) /
      st.handle.block_size =
      (offset + data.length - 1) / st.handle.block_size + 1 := by
    rw [show offset + data.length + st.handle.block_size - 1 =
        offset + data.length - 1 + st.handle.block_size by omega,
      Nat.add_div_right _ hbs]
  have hmul1 : (st.handle.start_lba + offset / st.handle.block_size) *
      st.handle.block_size =
      st.handle.start_lba * st.handle.block_size +
        offset / st.handle.block_size * st.handle.block_size := Nat.add_mul _ _ _
  have hmul2 : ((offset + data.length - 1) / st.handle.block_size -
      offset / st.handle.block_size + 1) * st.handle.block_size =
      (offset + data.length - 1) / st.handle.block_size * st.handle.block_size -
        offset / st.handle.block_size * st.handle.block_size +
        st.handle.block_size := by
    rw [Nat.add_mul, Nat.one_mul, Nat.sub_mul]
  have hmul4 : ((offset + data.length - 1) / st.handle.block_size + 1) *
      st.handle.block_size =
      (offset + data.length - 1) / st.handle.block_size * st.handle.block_size +
        st.handle.block_size := by
    rw [Nat.add_mul, Nat.one_mul]
  rw [hceil, hmul4] at hp
  simp only [hmul1, hmul2]
  generalize hQb : offset / st.handle.block_size * st.handle.block_size = Qb
    at hp hdm hmul3 ⊢
  generalize hEb : (offset + data.length - 1) / st.handle.block_size *
    st.handle.block_size = Eb at hp hdm2 hmul3 ⊢
  generalize hSb : st.handle.start_lba * st.handle.block_size = Sb at hp ⊢
  have hcond : Sb + Qb ≤ Sb + p ∧
      Sb + p < Sb + Qb + (Eb - Qb + st.handle.block_size) := by omega
  rw [if_pos hcond]
  have hidx : ¬ (offset % st.handle.block_size ≤ Sb + p - (Sb + Qb) ∧
      Sb + p - (Sb + Qb) < offset % st.handle.block_size + data.length) := by
    omega
  rw [if_neg hidx]
  congr 1
  omega

/-- Witness for C1: an unaligned 3-byte write at offset 9 into rmwSt
(8-byte blocks); byte 8 of the file (in [floor(9/8)*8, 9)) keeps its
value. -/
theorem rmw_preserves_neighbors_witness :
    (HeavenVfs.write (fun _ _ => false) (fun _ _ => false) false rmwSt
        [100, 101, 102] 9).1.disk
      (rmwSt.handle.start_lba * rmwSt.handle.block_size + 8) =
    rmwSt.disk (rmwSt.handle.start_lba * rmwSt.handle.block_size + 8) :=
  rmw_preserves_neighbors (fun _ _ => false) (fun _ _ => false) false rmwSt
    [100, 101, 102] 9 (by decide) (by decide) (by decide) (by decide) (by decide)
    (by decide) 8 (Or.inl (by decide))

/-! ## C6: format / load round trip -/

/-- Addresses below the written range are untouched by the zeroing loop. -/
theorem zeroBlocksLoop_lt (bs : Nat) :
    ∀ (n : Nat) (disk : Nat → Nat) (lba a : Nat), a < lba * bs →
      zeroBlocksLoop disk bs lba n a = disk a := by
  intro n
  induction n with
  | zero => intro disk lba a _; rfl
  | succ m ih =>
    intro disk lba a ha
    have hmono : lba * bs ≤ (lba + 1) * bs := Nat.mul_le_mul_right _ (by omega)
    rw [zeroBlocksLoop, ih _ (lba + 1) a (by omega)]
    simp only [writeBlocksD]
    rw [if_neg (by omega)]

/-- Addresses inside the written range read zero after the loop. -/
theorem zeroBlocksLoop_inside (bs : Nat) :
    ∀ (n : Nat) (disk : Nat → Nat) (lba a : Nat), lba * bs ≤ a → a < (lba + n) * bs →
      zeroBlocksLoop disk bs lba n a = 0 := by
  intro n
  induction n with
  | zero =>
    intro disk lba a h1 h2
    rw [Nat.add_zero] at h2
    omega
  | succ m ih =>
    intro disk lba a h1 h2
    have hsplit : (lba + 1) * bs = lba * bs + bs := by
      rw [Nat.add_mul, Nat.one_mul]
    by_cases hin : a < (lba + 1) * bs
    · rw [zeroBlocksLoop, zeroBlocksLoop_lt bs m _ (lba + 1) a hin]
      simp only [writeBlocksD]
      rw [if_pos (by rw [Nat.one_mul]; omega)]
    · rw [zeroBlocksLoop]
      apply ih _ (lba + 1) a (by omega)
      rw [show lba + 1 + m = lba + (m + 1) by omega]
      exact h2

/-- Little-endian decode inverts the byte encoding of a bounded value. -/
theorem leDec_bytes : ∀ (n : Nat) (v off : Nat) (f : Nat → Nat), v < 256 ^ n →
    (∀ j, j < n → f (off + j) = v / 256 ^ j % 256) → leDec f off n = v := by
  intro n
  induction n with
  | zero =>
    intro v off f hv _
    rw [leDec]
    rw [pow_zero] at hv
    omega
  | succ m ih =>
    intro v off f hv hf
    rw [leDec]
    have h0 : f off = v % 256 := by
      have := hf 0 (by omega)
      simpa using this
    have hrec : leDec f (off + 1) m = v / 256 := by
      apply ih (v / 256) (off + 1) f
      · rw [Nat.div_lt_iff_lt_mul (by norm_num : (0:Nat) < 256)]
        calc v < 256 ^ (m + 1) := hv
          _ = 256 ^ m * 256 := by rw [pow_succ]
      · intro j hj
        have := hf (j + 1) (by omega)
        rw [show off + 1 + j = off + (j + 1) by omega, this, Nat.div_div_eq_div_mul,
          pow_succ]
        congr 2
        omega
    rw [h0, hrec, Nat.mod_add_div]

theorem sum_map_const64 : ∀ (l : List Nat), (l.map (fun _ => (64 : Nat))).sum =
    l.length * 64 := by
  intro l
  induction l with
  | nil => rfl
  | cons a t ih =>
    simp only [List.map_cons, List.sum_cons, List.length_cons, ih]
    omega

/-- The per-word valid-bit counts of load sum to the data block count. -/
theorem sum_valid_bits (n : Nat) :
    ((List.range ((n + 63) / 64)).map (fun i =>
      if i = (n + 63) / 64 - 1 then (if n % 64 = 0 then 64 else n % 64) else 64)).sum
      = n := by
  by_cases h0 : n = 0
  · subst h0
    simp
  · have hw : List.range ((n + 63) / 64) = List.range ((n + 63) / 64 - 1 + 1) := by
      congr 1
      omega
    rw [hw, List.range_succ, List.map_append, List.sum_append]
    have hcg : ∀ i ∈ List.range ((n + 63) / 64 - 1),
        (if i = (n + 63) / 64 - 1 then (if n % 64 = 0 then 64 else n % 64) else 64) =
          (fun _ => (64 : Nat)) i := by
      intro i hi
      have hi2 := List.mem_range.mp hi
      simp only
      rw [if_neg (by omega)]
    rw [List.map_congr_left hcg, sum_map_const64, List.length_range]
    simp only [List.map_cons, List.map_nil, List.sum_cons, List.sum_nil, if_true]
    split <;> omega

/-- u64::count_ones of zero. -/
theorem popcount64_zero : popcount64 0 = 0 := by decide

/-- C6: format(N, B) on a blank device followed by load() on the same
device yields an allocator with free_count = the formatted
data_block_count, block_size = B, and
data_start_lba = 1 + bitmap_block_count + file_table_block_count.
Side conditions keep the u64/u32 fields in range and B a real NVMe
block size of at least the 4096-byte superblock. -/
theorem format_load_roundtrip (disk : Nat → Nat) (N B : Nat)
    (hN : 2 ≤ N) (hNmax : N + 2 < 2 ^ 64) (hB : 4096 ≤ B) (hBmax : B < 2 ^ 32) :
    ∃ a : BlockAllocator,
      BlockAllocator.load (BlockAllocator.format disk N B).1 B = .ok a ∧
      a.free_count = (BlockAllocator.format disk N B).2.data_block_count ∧
      a.free_count = a.data_block_count ∧
      a.block_size = B ∧
      a.data_start_lba = 1 + a.bitmap_on_disk_blocks + 1 := by
  set bb := (N - 1 - 1 + B * 8 - 1) / (B * 8) with hbbdef
  set db := N - (1 + bb + 1) with hdbdef
  set sbv : Superblock :=
    { magic := SUPERBLOCK_MAGIC, version := 1, block_size := B, total_blocks := N,
      bitmap_start_lba := 1, bitmap_block_count := bb, file_table_start_lba := 1 + bb,
      file_table_block_count := 1, data_start_lba := 1 + bb + 1,
      data_block_count := db } with hsbv
  set d1 := writeBlocksD disk 0 1 B (fun i => if i < 4096 then sbByte sbv i else 0)
    with hd1
  set d2 := zeroBlocksLoop d1 B 1 bb with hd2
  set d3 := writeBlocksD d2 (1 + bb) 1 B (fun _ => 0) with hd3
  have hfmt : BlockAllocator.format disk N B =
      (d3, { bitmap := List.replicate ((db + 63) / 64) 0, data_block_count := db,
             data_start_lba := 1 + bb + 1, bitmap_start_lba := 1,
             bitmap_on_disk_blocks := bb, block_size := B, free_count := db,
             dirty := false }) := rfl
  -- bb is at most N - 2
  have happrox : N - 1 - 1 ≤ (N - 1 - 1) * (B * 8) :=
    Nat.le_mul_of_pos_right _ (by omega)
  have hdivle : bb ≤ N - 1 - 1 := by
    rw [hbbdef]
    calc (N - 1 - 1 + B * 8 - 1) / (B * 8)
        ≤ (B * 8 - 1 + B * 8 * (N - 1 - 1)) / (B * 8) := by
          apply Nat.div_le_div_right
          have hc2 : (N - 1 - 1) * (B * 8) = B * 8 * (N - 1 - 1) := Nat.mul_comm _ _
          omega
      _ = (B * 8 - 1) / (B * 8) + (N - 1 - 1) := Nat.add_mul_div_left _ _ (by omega)
      _ = N - 1 - 1 := by
          rw [Nat.div_eq_of_lt (by omega)]
          omega
  -- superblock bytes survive the bitmap and file-table writes
  have hBmul1 : (1 + bb) * B = B + bb * B := by rw [Nat.add_mul, Nat.one_mul]
  have hbyte : ∀ i, i < 4096 → d3 i = sbByte sbv i := by
    intro i hi
    rw [hd3]
    simp only [writeBlocksD, Nat.one_mul]
    rw [if_neg (by omega)]
    rw [hd2, zeroBlocksLoop_lt B bb d1 1 i (by rw [Nat.one_mul]; omega)]
    rw [hd1]
    simp only [writeBlocksD, Nat.zero_mul, Nat.one_mul, Nat.zero_add, Nat.sub_zero]
    rw [if_pos (by omega), if_pos hi]
  -- decode each field
  have hfield : ∀ (n off v : Nat), off + n ≤ 4096 → v < 256 ^ n →
      (∀ j, j < n → sbByte sbv (off + j) = v / 256 ^ j % 256) →
      leDec (fun i => d3 i) off n = v := by
    intro n off v hoff hv hf
    apply leDec_bytes n v off _ hv
    intro j hj
    rw [hbyte (off + j) (by omega)]
    exact hf j hj
  have h2_64 : (2 : Nat) ^ 64 = 256 ^ 8 := by norm_num
  have h2_32 : (2 : Nat) ^ 32 = 256 ^ 4 := by norm_num
  have hmagic : leDec (fun i => d3 i) 0 8 = SUPERBLOCK_MAGIC := by
    apply hfield 8 0 SUPERBLOCK_MAGIC (by omega) (by norm_num [SUPERBLOCK_MAGIC])
    intro j hj
    unfold sbByte
    rw [if_pos (by omega), show (0 : Nat) + j = j from by omega]
  have hversion : leDec (fun i => d3 i) 8 4 = 1 := by
    apply hfield 4 8 1 (by omega) (by norm_num)
    intro j hj
    unfold sbByte
    rw [if_neg (by omega), if_pos (by omega), show 8 + j - 8 = j from by omega]
  have hbsz : leDec (fun i => d3 i) 12 4 = B := by
    apply hfield 4 12 B (by omega) (by omega)
    intro j hj
    unfold sbByte
    rw [if_neg (by omega), if_neg (by omega), if_pos (by omega),
      show 12 + j - 12 = j from by omega]
  have htb : leDec (fun i => d3 i) 16 8 = N := by
    apply hfield 8 16 N (by omega) (by omega)
    intro j hj
    unfold sbByte
    rw [if_neg (show ¬(16 + j < 8) by omega), if_neg (show ¬(16 + j < 12) by omega),
      if_neg (show ¬(16 + j < 16) by omega), if_pos (show 16 + j < 24 by omega),
      show 16 + j - 16 = j from by omega]
  have hbsl : leDec (fun i => d3 i) 24 8 = 1 := by
    apply hfield 8 24 1 (by omega) (by norm_num)
    intro j hj
    unfold sbByte
    rw [if_neg (show ¬(24 + j < 8) by omega), if_neg (show ¬(24 + j < 12) by omega),
      if_neg (show ¬(24 + j < 16) by omega), if_neg (show ¬(24 + j < 24) by omega),
      if_pos (show 24 + j < 32 by omega), show 24 + j - 24 = j from by omega]
  have hbbc : leDec (fun i => d3 i) 32 8 = bb := by
    apply hfield 8 32 bb (by omega) (by omega)
    intro j hj
    unfold sbByte
    rw [if_neg (show ¬(32 + j < 8) by omega), if_neg (show ¬(32 + j < 12) by omega),
      if_neg (show ¬(32 + j < 16) by omega), if_neg (show ¬(32 + j < 24) by omega),
      if_neg (show ¬(32 + j < 32) by omega), if_pos (show 32 + j < 40 by omega),
      show 32 + j - 32 = j from by omega]
  have hfts : leDec (fun i => d3 i) 40 8 = 1 + bb := by
    apply hfield 8 40 (1 + bb) (by omega) (by omega)
    intro j hj
    unfold sbByte
    rw [if_neg (show ¬(40 + j < 8) by omega), if_neg (show ¬(40 + j < 12) by omega),
      if_neg (show ¬(40 + j < 16) by omega), if_neg (show ¬(40 + j < 24) by omega),
      if_neg (show ¬(40 + j < 32) by omega), if_neg (show ¬(40 + j < 40) by omega),
      if_pos (show 40 + j < 48 by omega), show 40 + j - 40 = j from by omega]
  have hftc : leDec (fun i => d3 i) 48 8 = 1 := by
    apply hfield 8 48 1 (by omega) (by norm_num)
    intro j hj
    unfold sbByte
    rw [if_neg (show ¬(48 + j < 8) by omega), if_neg (show ¬(48 + j < 12) by omega),
      if_neg (show ¬(48 + j < 16) by omega), if_neg (show ¬(48 + j < 24) by omega),
      if_neg (show ¬(48 + j < 32) by omega), if_neg (show ¬(48 + j < 40) by omega),
      if_neg (show ¬(48 + j < 48) by omega), if_pos (show 48 + j < 56 by omega),
      show 48 + j - 48 = j from by omega]
  have hdsl2 : leDec (fun i => d3 i) 56 8 = 1 + bb + 1 := by
    apply hfield 8 56 (1 + bb + 1) (by omega) (by omega)
    intro j hj
    unfold sbByte
    rw [if_neg (show ¬(56 + j < 8) by omega), if_neg (show ¬(56 + j < 12) by omega),
      if_neg (show ¬(56 + j < 16) by omega), if_neg (show ¬(56 + j < 24) by omega),
      if_neg (show ¬(56 + j < 32) by omega), if_neg (show ¬(56 + j < 40) by omega),
      if_neg (show ¬(56 + j < 48) by omega), if_neg (show ¬(56 + j < 56) by omega),
      if_pos (show 56 + j < 64 by omega), show 56 + j - 56 = j from by omega]
  have hdbc2 : leDec (fun i => d3 i) 64 8 = db := by
    apply hfield 8 64 db (by omega) (by omega)
    intro j hj
    unfold sbByte
    rw [if_neg (show ¬(64 + j < 8) by omega), if_neg (show ¬(64 + j < 12) by omega),
      if_neg (show ¬(64 + j < 16) by omega), if_neg (show ¬(64 + j < 24) by omega),
      if_neg (show ¬(64 + j < 32) by omega), if_neg (show ¬(64 + j < 40) by omega),
      if_neg (show ¬(64 + j < 48) by omega), if_neg (show ¬(64 + j < 56) by omega),
      if_neg (show ¬(64 + j < 64) by omega), if_pos (show 64 + j < 72 by omega),
      show 64 + j - 64 = j from by omega]
  have hdeser : deserSB (fun i => d3 i) = sbv := by
    unfold deserSB
    rw [hmagic, hversion, hbsz, htb, hbsl, hbbc, hfts, hftc, hdsl2, hdbc2]
  -- the loaded bitmap words are all zero
  have hwpb8 : B / 8 * 8 ≤ B := Nat.div_mul_le_self B 8
  have hbmzero : loadBitmap d3 B 1 bb ((db + 63) / 64) =
      List.replicate ((db + 63) / 64) 0 := by
    apply List.ext_getElem
    · simp [loadBitmap]
    · intro i h1 h2
      simp only [loadBitmap, List.getElem_map, List.getElem_range,
        List.getElem_replicate]
      by_cases hc : i / (B / 8) < bb
      · rw [if_pos hc]
        apply leDec_bytes 8 0 _ _ (by norm_num)
        intro j hj
        simp only [Nat.zero_div, Nat.zero_mod]
        have hm : i % (B / 8) < B / 8 := Nat.mod_lt _ (by omega)
        generalize hmm2 : i % (B / 8) = m at hm
        generalize hblk : i / (B / 8) = blk at hc
        have hoff : m * 8 + j < B := by omega
        have hup : (1 + blk) * B + B ≤ (1 + bb) * B := by
          have h5 : (1 + blk) * B + B = (1 + blk + 1) * B := by
            rw [Nat.add_mul (1 + blk) 1 B, Nat.one_mul]
          rw [h5]
          exact Nat.mul_le_mul_right _ (by omega)
        have hlow : B ≤ (1 + blk) * B := by
          calc B = 1 * B := (Nat.one_mul B).symm
            _ ≤ (1 + blk) * B := Nat.mul_le_mul_right _ (by omega)
        rw [hd3]
        simp only [writeBlocksD, Nat.one_mul]
        rw [if_neg (by omega)]
        rw [hd2]
        apply zeroBlocksLoop_inside B bb d1 1 _ (by rw [Nat.one_mul]; omega)
        rw [show (1 + bb) * B = (1 + bb) * B from rfl]
        omega
      · rw [if_neg hc]
  -- the recomputed free count equals the data block count
  have hgetDrep : ∀ i, (List.replicate ((db + 63) / 64) (0 : Nat)).getD i 0 = 0 := by
    intro i
    rcases Nat.lt_or_ge i ((db + 63) / 64) with h | h
    · rw [List.getD_eq_getElem?_getD,
        List.getElem?_eq_getElem (by simpa using h), List.getElem_replicate]
      rfl
    · exact getD_of_length_le _ _ _ (by simpa using h)
  have hfc : loadFreeCount (List.replicate ((db + 63) / 64) 0) db = db := by
    simp only [loadFreeCount, List.length_replicate]
    rw [List.map_congr_left (fun i hi => by
      rw [hgetDrep i, popcount64_zero, Nat.sub_zero])]
    exact sum_valid_bits db
  have hvalid : sbv.is_valid = true := by
    simp only [hsbv, Superblock.is_valid, SUPERBLOCK_MAGIC]
    rfl
  have hload : BlockAllocator.load d3 B = .ok
      { bitmap := loadBitmap d3 B 1 bb ((db + 63) / 64),
        data_block_count := db, data_start_lba := 1 + bb + 1, bitmap_start_lba := 1,
        bitmap_on_disk_blocks := bb, block_size := B,
        free_count := loadFreeCount (loadBitmap d3 B 1 bb ((db + 63) / 64)) db,
        dirty := false } := by
    simp only [BlockAllocator.load]
    rw [hdeser, if_pos hvalid]
  have hload2 : BlockAllocator.load (BlockAllocator.format disk N B).1 B = .ok
      { bitmap := loadBitmap d3 B 1 bb ((db + 63) / 64), data_block_count := db,
        data_start_lba := 1 + bb + 1, bitmap_start_lba := 1,
        bitmap_on_disk_blocks := bb, block_size := B,
        free_count := loadFreeCount (loadBitmap d3 B 1 bb ((db + 63) / 64)) db,
        dirty := false } := by
    rw [hfmt]
    exact hload
  refine ⟨_, hload2, ?_, ?_, ?_, ?_⟩
  · rw [hfmt]
    show loadFreeCount (loadBitmap d3 B 1 bb ((db + 63) / 64)) db = db
    rw [hbmzero, hfc]
  · show loadFreeCount (loadBitmap d3 B 1 bb ((db + 63) / 64)) db = db
    rw [hbmzero, hfc]
  · rfl
  · rfl

/-- Witness for C6 at a concrete 1024-block, 4096-byte device. -/
theorem format_load_roundtrip_witness :
    ∃ a : BlockAllocator,
      BlockAllocator.load (BlockAllocator.format (fun _ => 7) 1024 4096).1 4096 =
        .ok a ∧
      a.free_count = (BlockAllocator.format (fun _ => 7) 1024 4096).2.data_block_count ∧
      a.free_count = a.data_block_count ∧
      a.block_size = 4096 ∧
      a.data_start_lba = 1 + a.bitmap_on_disk_blocks + 1 :=
  format_load_roundtrip (fun _ => 7) 1024 4096 (by norm_num) (by norm_num)
    (by norm_num) (by norm_num)

end OSqlite
